import Mathlib

/-!
Singly linked list of `src/linkedlist.h`

A shallow embedding of the class template `List<T>` (and of `Node<T>`) together with
the properties of its operations.

* A value of type `Node<T>*` is either `nullptr` or the address of a node holding `data`
  and `next`; the chains built by the class are finite and never shared, so such a
  pointer is modelled by the inductive type `NodePtr`.
* A `List<T>` object is the pair of its two members `head` and `size`.
* A member function that can throw returns `Except Fault _`; the exception leaves the
  object as it was, so the error case carries no list.
* `std::vector<T>` and `std::initializer_list<T>` are modelled by Lean lists.
-/

set_option autoImplicit false

/-- The ways in which a call can fail to return normally. `outOfRange` is the exception
`std::out_of_range` thrown by the bounds checks. The other two are undefined behaviour
of the C++ program: following a null pointer, and reading a raw array past its end. -/
inductive Fault where
  | outOfRange
  | nullDeref
  | arrayOverrun
  deriving DecidableEq, Repr

/-- A pointer of type `Node<T>*`: either `nullptr`, or a node with its `data` member and
its `next` member. -/
inductive NodePtr (α : Type) where
  | null : NodePtr α
  | node (data : α) (next : NodePtr α) : NodePtr α
  deriving DecidableEq, Repr

/-- An object of class `List<T>`: the private members `head` and `size`.

`size` is a `size_t`. It is incremented once per allocated node, and the nodes alive at
one time are fewer than `2 ^ 64`, so `++size` is modelled without wrap-around; `--size`
wraps at zero as in C++ (see `decSize`). -/
structure LinkedList (α : Type) where
  head : NodePtr α
  size : Nat
  deriving DecidableEq, Repr

namespace NodePtr

variable {α : Type}

/-- Number of nodes met when following `next` from the given pointer until `nullptr`. -/
def nodeCount : NodePtr α → Nat
  | null => 0
  | node _ nxt => nodeCount nxt + 1

/-- The `data` members met when following `next` from the given pointer, in order. -/
def values : NodePtr α → List α
  | null => []
  | node d nxt => d :: values nxt

/-- The test `p == nullptr`. -/
def isNull : NodePtr α → Bool
  | null => true
  | node _ _ => false

/-- The expression `current->data`. -/
def deref : NodePtr α → Except Fault α
  | null => .error .nullDeref
  | node d _ => .ok d

/-- The loop `for (i = 0; i < n; ++i) current = current->next;`, giving the final value
of `current`. -/
def advance : Nat → NodePtr α → Except Fault (NodePtr α)
  | 0, cur => .ok cur
  | _ + 1, null => .error .nullDeref
  | n + 1, node _ nxt => advance n nxt

/-- The loop `for (i = 0; i < n; ++i) current = current->next;` followed by an in-place
change `body` of what `current` then points to. The result is the chain seen from the
pointer the walk started at. -/
def atCursor (body : NodePtr α → Except Fault (NodePtr α)) :
    Nat → NodePtr α → Except Fault (NodePtr α)
  | 0, cur => body cur
  | _ + 1, null => .error .nullDeref
  | n + 1, node d nxt =>
    match atCursor body n nxt with
    | .ok nxt2 => .ok (node d nxt2)
    | .error e => .error e

/-- The assignment `current->data = value`. -/
def setData (value : α) : NodePtr α → Except Fault (NodePtr α)
  | null => .error .nullDeref
  | node _ nxt => .ok (node value nxt)

/-- The two assignments `newNode->next = current->next; current->next = newNode;` of
`append(value, index)`, where `newNode` holds `value`. -/
def linkAfter (value : α) : NodePtr α → Except Fault (NodePtr α)
  | null => .error .nullDeref
  | node d nxt => .ok (node d (node value nxt))

/-- The statements `temp = current->next; current->next = temp->next; delete temp;` of
`remove(index)`. -/
def unlinkNext : NodePtr α → Except Fault (NodePtr α)
  | null => .error .nullDeref
  | node _ null => .error .nullDeref
  | node d (node _ nn) => .ok (node d nn)

/-- The walk of `append(value)` from a non-null `current` (members `d` and the third
argument): `while (current->next != nullptr) current = current->next;` followed by
`current->next = newNode;`. -/
def appendWalk (newNode : NodePtr α) (d : α) : NodePtr α → NodePtr α
  | null => node d newNode
  | node e nn => node d (appendWalk newNode e nn)

/-- The loop of `remove(value)` from a non-null `current` (members `d` and the third
argument). It gives the chain after unlinking the first following node whose data equals
`value`, or `none` when the loop ends without a match. -/
def removeWalk [DecidableEq α] (value : α) (d : α) : NodePtr α → Option (NodePtr α)
  | null => none
  | node e nn =>
    if e = value then some (node d nn)
    else
      match removeWalk value e nn with
      | some rest => some (node d rest)
      | none => none

/-- The loop of `reverse()`, as a function of `prev` and `current`; the result is the
final `prev`. -/
def reverseLoop : NodePtr α → NodePtr α → NodePtr α
  | prev, null => prev
  | prev, node d nxt => reverseLoop (node d prev) nxt

/-- The loop of `clear()`: `while (head != nullptr) { temp = head; head = head->next;
delete temp; }`, giving the final `head`. -/
def clearLoop : NodePtr α → NodePtr α
  | null => null
  | node _ nxt => clearLoop nxt

/-- The loop of `toVector()`, as a function of `current` and `arr`. -/
def toVectorLoop : NodePtr α → List α → List α
  | null, arr => arr
  | node d nxt, arr => toVectorLoop nxt (arr ++ [d])

/-- The loop of the constructor from a vector, for the elements after the first:
each iteration allocates a node and links it behind `current`. -/
def buildRest : List α → NodePtr α
  | [] => null
  | x :: xs => node x (buildRest xs)

/-- The loop of `tailNode()` from a non-null `current` with members `d` and the third
argument; the node reached is given by its data. -/
def lastData (d : α) : NodePtr α → α
  | null => d
  | node e nn => lastData e nn

/-- The loop of `find(value)`: the first node, if any, whose data equals `value`. -/
def findLoop [DecidableEq α] (value : α) : NodePtr α → NodePtr α
  | null => null
  | node d nxt => if d = value then node d nxt else findLoop value nxt

/-- The loop of `count(value)`, as a function of `current` and `cnt`. -/
def countLoop [DecidableEq α] (value : α) : NodePtr α → Nat → Nat
  | null, cnt => cnt
  | node d nxt, cnt => countLoop value nxt (if d = value then cnt + 1 else cnt)

end NodePtr

namespace LinkedList

open NodePtr

variable {α : Type}

/-- The conversion `static_cast<int>(size)` of a `size_t` to a 32-bit `int`: the value
modulo `2 ^ 32`, read as a signed number. -/
def toInt (n : Nat) : Int := ((n : Int) + 2 ^ 31) % 2 ^ 32 - 2 ^ 31

/-- The statement `--size` on a `size_t` of 64 bits. -/
def decSize (s : Nat) : Nat := if s = 0 then 2 ^ 64 - 1 else s - 1

/-- The constructor `List()`. -/
def empty : LinkedList α := ⟨null, 0⟩

/-- The member `len()`. -/
def len (l : LinkedList α) : Nat := l.size

/-- The member `headNode()`. -/
def headNode (l : LinkedList α) : NodePtr α := l.head

/-- The member `isEmpty()`. -/
def isEmpty (l : LinkedList α) : Bool :=
  if l.size = 0 ∨ isNull l.head = true then true else false

/-- The member `append(const T& value)`. -/
def append (l : LinkedList α) (value : α) : LinkedList α :=
  match l.head with
  | null => ⟨node value null, l.size + 1⟩
  | node d nxt => ⟨appendWalk (node value null) d nxt, l.size + 1⟩

/-- The member `append(const T& value, int index)`. The argument `index` stands for an
`int`. The loop `for (int i = 0; i < index - 1; ++i)` runs `index - 1` times, and not at
all when `index - 1` is negative. -/
def appendAt (l : LinkedList α) (value : α) (index : Int) : Except Fault (LinkedList α) :=
  if index < -1 ∨ index > toInt l.size then .error .outOfRange
  else if index = 0 then .ok ⟨node value l.head, l.size + 1⟩
  else
    match atCursor (linkAfter value) (index - 1).toNat l.head with
    | .ok h => .ok ⟨h, l.size + 1⟩
    | .error e => .error e

/-- The member `get(size_t index)`. -/
def get (l : LinkedList α) (index : Nat) : Except Fault α :=
  if index ≥ l.size then .error .outOfRange
  else
    match advance index l.head with
    | .ok current => deref current
    | .error e => .error e

/-- The member `operator[](size_t index)`; the result is the value read through the
returned reference. -/
def subscript (l : LinkedList α) (index : Nat) : Except Fault α :=
  if index ≥ l.size then .error .outOfRange
  else
    match advance index l.head with
    | .ok current => deref current
    | .error e => .error e

/-- The member `update(const T& value, size_t index)`. -/
def update (l : LinkedList α) (value : α) (index : Nat) : Except Fault (LinkedList α) :=
  if index ≥ l.size then .error .outOfRange
  else
    match atCursor (setData value) index l.head with
    | .ok h => .ok ⟨h, l.size⟩
    | .error e => .error e

/-- The member `remove(const T& value)`. -/
def remove [DecidableEq α] (l : LinkedList α) (value : α) : LinkedList α :=
  match l.head with
  | null => l
  | node d nxt =>
    if d = value then ⟨nxt, decSize l.size⟩
    else
      match removeWalk value d nxt with
      | some h => ⟨h, decSize l.size⟩
      | none => l

/-- The member `remove(size_t index)`. -/
def removeAt (l : LinkedList α) (index : Nat) : Except Fault (LinkedList α) :=
  if index ≥ l.size then .error .outOfRange
  else if index = 0 then
    match l.head with
    | null => .error .nullDeref
    | node _ nxt => .ok ⟨nxt, decSize l.size⟩
  else
    match atCursor unlinkNext (index - 1) l.head with
    | .ok h => .ok ⟨h, decSize l.size⟩
    | .error e => .error e

/-- The member `swap(size_t j1, size_t j2)`. The two nodes are located first, then the
two `data` members are exchanged through `temp`. -/
def swap (l : LinkedList α) (j1 j2 : Nat) : Except Fault (LinkedList α) :=
  if j1 ≥ l.size ∨ j2 ≥ l.size then .error .outOfRange
  else if j1 = j2 then .ok l
  else
    match advance j1 l.head, advance j2 l.head with
    | .ok node1, .ok node2 =>
      match deref node1, deref node2 with
      | .ok temp, .ok d2 =>
        match atCursor (setData d2) j1 l.head with
        | .ok h1 =>
          match atCursor (setData temp) j2 h1 with
          | .ok h2 => .ok ⟨h2, l.size⟩
          | .error e => .error e
        | .error e => .error e
      | .error e, _ => .error e
      | _, .error e => .error e
    | .error e, _ => .error e
    | _, .error e => .error e

/-- The member `clear()`. -/
def clear (l : LinkedList α) : LinkedList α := ⟨clearLoop l.head, 0⟩

/-- The member `reverse()`. -/
def reverse (l : LinkedList α) : LinkedList α := ⟨reverseLoop null l.head, l.size⟩

/-- The member `toVector()`. -/
def toVector (l : LinkedList α) : List α :=
  match l.head with
  | null => []
  | node d nxt => toVectorLoop (node d nxt) []

/-- The constructor `List(std::initializer_list<T> init)`. -/
def ofInitList (init : List α) : LinkedList α := init.foldl append empty

/-- The constructor `List(size_t count, T* data)`; the array behind `data` is given with
its real extent, and reading `data[i]` beyond it is a fault. -/
def ofArray (count : Nat) (data : Array α) : Except Fault (LinkedList α) :=
  (List.range count).foldlM
    (fun (acc : LinkedList α) (i : Nat) =>
      match data[i]? with
      | some x => Except.ok (acc.append x)
      | none => Except.error Fault.arrayOverrun)
    empty

/-- The loop shared by the copy constructor, `operator=` and `operator+`:
`while (current != nullptr) { result.append(current->data); current = current->next; }`. -/
def copyLoop : NodePtr α → LinkedList α → LinkedList α
  | null, result => result
  | node d nxt, result => copyLoop nxt (result.append d)

/-- The constructor `List(const List& other)`. -/
def copy (other : LinkedList α) : LinkedList α := copyLoop other.head empty

/-- The constructor `List(const std::vector<T>& other)`. -/
def ofVector (other : List α) : LinkedList α :=
  match other with
  | [] => ⟨null, 0⟩
  | x :: rest => ⟨node x (buildRest rest), other.length⟩

/-- The member `operator+(const List<T>& other)`. -/
def concat (l other : LinkedList α) : LinkedList α := copyLoop other.head (copy l)

/-- The member `tailNode()`, the node being given by its data. -/
def tailNode (l : LinkedList α) : Option α :=
  match l.head with
  | null => none
  | node d nxt => some (lastData d nxt)

/-- The member `find(const T& value)`. -/
def find [DecidableEq α] (l : LinkedList α) (value : α) : NodePtr α := findLoop value l.head

/-- The member `count(const T& value)`. -/
def count [DecidableEq α] (l : LinkedList α) (value : α) : Nat := countLoop value l.head 0

/-- The class invariant relating the two members: `size` is the number of nodes of the
chain that starts at `head`. -/
def WF (l : LinkedList α) : Prop := l.size = nodeCount l.head

/-- The lists that a program can hold: built by one of the constructors (default,
initializer list, array, vector, copy) and then changed by calls of the mutating members
that return normally. A call that throws leaves the list as it was. -/
inductive Reachable [DecidableEq α] : LinkedList α → Prop
  | default : Reachable empty
  | literal (init : List α) : Reachable (ofInitList init)
  | array (count : Nat) (data : Array α) (l : LinkedList α) :
      ofArray count data = .ok l → Reachable l
  | vector (other : List α) : Reachable (ofVector other)
  | copy (other : LinkedList α) : Reachable other → Reachable (copy other)
  | append (l : LinkedList α) (v : α) : Reachable l → Reachable (l.append v)
  | appendAt (l : LinkedList α) (v : α) (i : Int) (l2 : LinkedList α) :
      Reachable l → l.appendAt v i = .ok l2 → Reachable l2
  | update (l : LinkedList α) (v : α) (i : Nat) (l2 : LinkedList α) :
      Reachable l → l.update v i = .ok l2 → Reachable l2
  | remove (l : LinkedList α) (v : α) : Reachable l → Reachable (l.remove v)
  | removeAt (l : LinkedList α) (i : Nat) (l2 : LinkedList α) :
      Reachable l → l.removeAt i = .ok l2 → Reachable l2
  | swap (l : LinkedList α) (i j : Nat) (l2 : LinkedList α) :
      Reachable l → l.swap i j = .ok l2 → Reachable l2
  | reverse (l : LinkedList α) : Reachable l → Reachable l.reverse
  | clear (l : LinkedList α) : Reachable l → Reachable l.clear

end LinkedList

/-! ## Member functions as programs on the object

The functions of `LinkedList` above give the object after a call that returns normally.
To speak about the object after a call that throws, the members with a bounds check are
given a second time, statement by statement, as programs that read and write the members
of `*this`: running such a program gives the outcome of the call together with the
object as it is when control leaves the function. -/

/-- A member function as a program on the object `*this`: from the object at the call it
gives the outcome (a result, or the fault by which the call is left) and the object as it
is when control leaves the function. -/
def Member (α β : Type) : Type := LinkedList α → Except Fault β × LinkedList α

namespace Member

open NodePtr

variable {α β γ : Type}

/-- Leaving a function normally with a result. -/
def ret (x : β) : Member α β := fun l => (.ok x, l)

/-- Sequencing of statements: what follows runs on the object left by what precedes; a
fault ends the function at once, with the object as it is at that point. -/
def seq (m : Member α β) (f : β → Member α γ) : Member α γ := fun l =>
  match m l with
  | (.ok x, l2) => f x l2
  | (.error e, l2) => (.error e, l2)

instance : Monad (Member α) where
  pure := ret
  bind := seq

/-- The statement `throw e`, and likewise a step of undefined behaviour. -/
def raise (e : Fault) : Member α β := fun l => (.error e, l)

/-- Reading the members `head` and `size` of `*this`. -/
def readThis : Member α (LinkedList α) := fun l => (.ok l, l)

/-- A write to `head` or to a node of the chain: `h` is the chain as seen from `head`
after the write. -/
def setHead (h : NodePtr α) : Member α Unit := fun l => (.ok (), { l with head := h })

/-- A write to `size`. -/
def setSize (n : Nat) : Member α Unit := fun l => (.ok (), { l with size := n })

/-- A computation that only reads: its fault, if any, ends the function. -/
def liftFault : Except Fault β → Member α β
  | .ok x => ret x
  | .error e => raise e

/-- The member `get(size_t index)`. -/
def get (index : Nat) : Member α α := do
  let l ← readThis
  if index ≥ l.size then raise Fault.outOfRange
  else
    let current ← liftFault (advance index l.head)
    liftFault (deref current)

/-- The member `operator[](size_t index)`. -/
def subscript (index : Nat) : Member α α := do
  let l ← readThis
  if index ≥ l.size then raise Fault.outOfRange
  else
    let current ← liftFault (advance index l.head)
    liftFault (deref current)

/-- The member `update(const T& value, size_t index)`. -/
def update (value : α) (index : Nat) : Member α Unit := do
  let l ← readThis
  if index ≥ l.size then raise Fault.outOfRange
  else
    let h ← liftFault (atCursor (setData value) index l.head)
    setHead h

/-- The member `append(const T& value, int index)`. -/
def appendAt (value : α) (index : Int) : Member α Unit := do
  let l ← readThis
  if index < -1 ∨ index > LinkedList.toInt l.size then raise Fault.outOfRange
  else
    if index = 0 then
      setHead (node value l.head)
    else
      let h ← liftFault (atCursor (linkAfter value) (index - 1).toNat l.head)
      setHead h
    let l2 ← readThis
    setSize (l2.size + 1)

/-- The member `remove(size_t index)`. -/
def removeAt (index : Nat) : Member α Unit := do
  let l ← readThis
  if index ≥ l.size then raise Fault.outOfRange
  else
    if index = 0 then
      match l.head with
      | null => raise Fault.nullDeref
      | node _ nxt => setHead nxt
    else
      let h ← liftFault (atCursor unlinkNext (index - 1) l.head)
      setHead h
    let l2 ← readThis
    setSize (LinkedList.decSize l2.size)

/-- The member `swap(size_t j1, size_t j2)`. -/
def swap (j1 j2 : Nat) : Member α Unit := do
  let l ← readThis
  if j1 ≥ l.size ∨ j2 ≥ l.size then raise Fault.outOfRange
  else if j1 = j2 then ret ()
  else
    let node1 ← liftFault (advance j1 l.head)
    let node2 ← liftFault (advance j2 l.head)
    let temp ← liftFault (deref node1)
    let d2 ← liftFault (deref node2)
    let h1 ← liftFault (atCursor (setData d2) j1 l.head)
    setHead h1
    let l1 ← readThis
    let h2 ← liftFault (atCursor (setData temp) j2 l1.head)
    setHead h2

end Member

/-! ## Nodes in memory

The chains of `NodePtr` are values: they say which data a list holds, not where its nodes
lie, so they cannot tell a list that owns its nodes from one that shares them with
another list. For `operator+`, whose contract is about a new list and two operands left
alone, the copy constructor, `append(value)` and `operator+` are given a second time on
a store of nodes with addresses. -/

/-- A `Node<T>` as it lies in memory: its `data` member and its `next` member, `none`
being `nullptr` and `some c` the address `c`. -/
structure HeapNode (α : Type) where
  data : α
  next : Option Nat
  deriving DecidableEq, Repr

/-- The free store: the nodes allocated so far, the node at address `c` being element
`c`. -/
abbrev Heap (α : Type) := List (HeapNode α)

/-- An object of class `List<T>` with its members as they are in memory: `head` is
`nullptr` or the address of a node. -/
structure HeapList where
  head : Option Nat
  size : Nat
  deriving DecidableEq, Repr

namespace OnHeap

variable {α : Type}

/-- The expression `new Node<T>(value)`: a node with `next == nullptr` at an address where
no node was; the result is the new store and that address. -/
def newNode (h : Heap α) (value : α) : Heap α × Nat := (h ++ [⟨value, none⟩], h.length)

/-- The assignment `current->next = nx` to the node at address `c`. -/
def setNext (h : Heap α) (c : Nat) (nx : Option Nat) : Heap α :=
  match h[c]? with
  | some n => h.set c { n with next := nx }
  | none => h

/-- The loop `while (current->next != nullptr) current = current->next;` of
`append(value)`, giving the final `current`. It gives `none` when a pointer leads outside
the store or when `fuel` iterations do not reach the end. -/
def lastNode (h : Heap α) : Nat → Nat → Option Nat
  | 0, _ => none
  | fuel + 1, current =>
    match h[current]? with
    | none => none
    | some n =>
      match n.next with
      | none => some current
      | some nx => lastNode h fuel nx

/-- The member `append(const T& value)` on the object `l`: the store and the object after
the call. -/
def append (fuel : Nat) (h : Heap α) (l : HeapList) (value : α) :
    Option (Heap α × HeapList) :=
  match l.head with
  | none => some ((newNode h value).1, ⟨some (newNode h value).2, l.size + 1⟩)
  | some hd =>
    match lastNode (newNode h value).1 fuel hd with
    | some current =>
      some (setNext (newNode h value).1 current (some (newNode h value).2),
        ⟨l.head, l.size + 1⟩)
    | none => none

/-- The loop `while (current != nullptr) { result.append(current->data);
current = current->next; }` of the copy constructor and of `operator+`, as a function
of the store, `current` and the object appended to. The first argument bounds the walk
inside `append`, the second the iterations of this loop. -/
def copyLoop (fuel : Nat) : Nat → Heap α → Option Nat → HeapList →
    Option (Heap α × HeapList)
  | _, h, none, result => some (h, result)
  | 0, _, some _, _ => none
  | n + 1, h, some c, result =>
    match h[c]? with
    | none => none
    | some node =>
      match append fuel h result node.data with
      | none => none
      | some (h2, result2) =>
        match h2[c]? with
        | none => none
        | some node2 => copyLoop fuel n h2 node2.next result2

/-- The constructor `List(const List& other)`: the store after it and the new object. -/
def copy (fuel : Nat) (h : Heap α) (other : HeapList) : Option (Heap α × HeapList) :=
  copyLoop fuel fuel h other.head ⟨none, 0⟩

/-- The member `operator+(const List<T>& other)` called on `a` with argument `b`: the
store after the call and the returned object. The local `result` is copy-constructed
from `*this`, receives the values of `other`, and is returned by value, which hands over
its `head` and `size`. -/
def concat (fuel : Nat) (h : Heap α) (a b : HeapList) : Option (Heap α × HeapList) :=
  match copy fuel h a with
  | none => none
  | some (h1, result) => copyLoop fuel fuel h1 b.head result

/-- The pointer `p` leads, in the store `h`, through exactly the nodes listed, each given
by its address and its data, and then to `nullptr`. -/
def IsChain (h : Heap α) : Option Nat → List (Nat × α) → Prop
  | p, [] => p = none
  | p, (c, x) :: rest =>
    p = some c ∧
    match h[c]? with
    | some n => n.data = x ∧ IsChain h n.next rest
    | none => False

/-- The object `o` in the store `h` is the list `l` of the value model: its head leads
through the nodes `nodes`, which hold the values of `l` in order, and its `size` member is
that of `l`. -/
def Represents (h : Heap α) (o : HeapList) (nodes : List (Nat × α)) (l : LinkedList α) :
    Prop :=
  IsChain h o.head nodes ∧ nodes.map Prod.snd = NodePtr.values l.head ∧ o.size = l.size

end OnHeap

/-! ## Lemmas on node chains -/

namespace NodePtr

variable {α : Type}

theorem nodeCount_eq_length (p : NodePtr α) : nodeCount p = (values p).length := by
  induction p with
  | null => rfl
  | node d nxt ih => simp [nodeCount, values, ih]

theorem values_buildRest (xs : List α) : values (buildRest xs) = xs := by
  induction xs with
  | nil => rfl
  | cons x xs ih => simp [buildRest, values, ih]

theorem toVectorLoop_eq (p : NodePtr α) (arr : List α) :
    toVectorLoop p arr = arr ++ values p := by
  induction p generalizing arr with
  | null => simp [toVectorLoop, values]
  | node d nxt ih => simp [toVectorLoop, values, ih]

theorem values_appendWalk (newNode : NodePtr α) (d : α) (p : NodePtr α) :
    values (appendWalk newNode d p) = d :: (values p ++ values newNode) := by
  induction p generalizing d with
  | null => simp [appendWalk, values]
  | node e nn ih => simp [appendWalk, values, ih]

theorem values_reverseLoop (prev cur : NodePtr α) :
    values (reverseLoop prev cur) = (values cur).reverse ++ values prev := by
  induction cur generalizing prev with
  | null => simp [reverseLoop, values]
  | node d nxt ih => simp [reverseLoop, values, ih]

theorem clearLoop_eq (p : NodePtr α) : clearLoop p = null := by
  induction p with
  | null => rfl
  | node d nxt ih => simpa [clearLoop] using ih

/-- What a successful `atCursor` did: it reached some `q` and changed it to some `q2`. -/
theorem atCursor_inv (body : NodePtr α → Except Fault (NodePtr α)) (n : Nat)
    (p r : NodePtr α) (h : atCursor body n p = .ok r) :
    ∃ q q2, advance n p = .ok q ∧ body q = .ok q2 ∧
      values p = (values p).take n ++ values q ∧
      values r = (values p).take n ++ values q2 := by
  induction n generalizing p r with
  | zero => exact ⟨p, r, rfl, by simpa [atCursor] using h, by simp, by simp⟩
  | succ n ih =>
    cases p with
    | null => simp [atCursor] at h
    | node d nxt =>
      simp only [atCursor] at h
      split at h
      · rename_i nxt2 hn
        obtain ⟨q, q2, hq, hb, hp, hr⟩ := ih nxt nxt2 hn
        refine ⟨q, q2, by simpa [advance] using hq, hb, ?_, ?_⟩
        · simp only [values, List.take_succ_cons, List.cons_append]
          exact congrArg _ hp
        · cases h
          simp only [values, List.take_succ_cons, List.cons_append]
          exact congrArg _ hr
      · cases h

end NodePtr

/-! ## The class invariant is kept by every operation -/

namespace LinkedList

open NodePtr

variable {α : Type}

theorem toVector_eq_values (l : LinkedList α) : toVector l = values l.head := by
  unfold toVector
  split
  · rename_i h
    simp [h, values]
  · rename_i d nxt h
    simp [h, toVectorLoop_eq]

theorem values_append (l : LinkedList α) (v : α) :
    values (l.append v).head = values l.head ++ [v] := by
  unfold append
  split
  · rename_i h
    simp [h, values]
  · rename_i d nxt h
    simp [h, values, values_appendWalk]

theorem size_append (l : LinkedList α) (v : α) : (l.append v).size = l.size + 1 := by
  unfold append
  split <;> rfl

theorem WF_append (l : LinkedList α) (v : α) (h : WF l) : WF (l.append v) := by
  unfold WF at *
  rw [size_append, nodeCount_eq_length, values_append, h, nodeCount_eq_length]
  simp

theorem WF_empty : WF (empty : LinkedList α) := rfl

theorem WF_foldl_append (init : List α) (l : LinkedList α) (h : WF l) :
    WF (init.foldl append l) := by
  induction init generalizing l with
  | nil => simpa using h
  | cons x xs ih => exact ih _ (WF_append l x h)

theorem WF_ofArray_aux (data : Array α) (is : List Nat) (acc l : LinkedList α)
    (hacc : WF acc)
    (h : is.foldlM
      (fun (acc : LinkedList α) (i : Nat) =>
        match data[i]? with
        | some x => Except.ok (acc.append x)
        | none => Except.error Fault.arrayOverrun) acc = .ok l) : WF l := by
  induction is generalizing acc with
  | nil =>
    simp [List.foldlM, pure, Except.pure] at h
    subst h
    exact hacc
  | cons i is ih =>
    simp only [List.foldlM, bind, Except.bind] at h
    split at h
    · cases h
    · rename_i acc2 hstep
      split at hstep
      · rename_i x hx
        cases hstep
        exact ih _ (WF_append acc x hacc) h
      · cases hstep

theorem WF_ofArray (count : Nat) (data : Array α) (l : LinkedList α)
    (h : ofArray count data = .ok l) : WF l :=
  WF_ofArray_aux data (List.range count) empty l WF_empty h

theorem WF_ofVector (other : List α) : WF (ofVector other) := by
  cases other with
  | nil => rfl
  | cons x rest =>
    simp [ofVector, WF, nodeCount, nodeCount_eq_length, values_buildRest]

theorem WF_copyLoop (p : NodePtr α) (result : LinkedList α) (h : WF result) :
    WF (copyLoop p result) := by
  induction p generalizing result with
  | null => simpa [copyLoop] using h
  | node d nxt ih => exact ih _ (WF_append result d h)

theorem WF_atCursor (body : NodePtr α → Except Fault (NodePtr α)) (a b : Nat)
    (hbody : ∀ q q2, body q = .ok q2 → nodeCount q2 + a = nodeCount q + b)
    (n : Nat) (p r : NodePtr α) (h : atCursor body n p = .ok r) :
    nodeCount r + a = nodeCount p + b := by
  obtain ⟨q, q2, _, hb, hp, hr⟩ := atCursor_inv body n p r h
  have h1 := hbody q q2 hb
  have e1 : nodeCount p = ((values p).take n).length + nodeCount q := by
    rw [nodeCount_eq_length p, nodeCount_eq_length q]
    conv_lhs => rw [hp]
    simp
  have e2 : nodeCount r = ((values p).take n).length + nodeCount q2 := by
    rw [nodeCount_eq_length r, nodeCount_eq_length q2, hr]
    simp
  omega

theorem nodeCount_setData (value : α) (q q2 : NodePtr α) (h : setData value q = .ok q2) :
    nodeCount q2 + 0 = nodeCount q + 0 := by
  cases q with
  | null => simp [setData] at h
  | node d nxt =>
    simp [setData] at h
    subst h
    simp [nodeCount]

theorem nodeCount_linkAfter (value : α) (q q2 : NodePtr α)
    (h : linkAfter value q = .ok q2) : nodeCount q2 + 0 = nodeCount q + 1 := by
  cases q with
  | null => simp [linkAfter] at h
  | node d nxt =>
    simp [linkAfter] at h
    subst h
    simp [nodeCount]

theorem nodeCount_unlinkNext (q q2 : NodePtr α) (h : unlinkNext q = .ok q2) :
    nodeCount q2 + 1 = nodeCount q + 0 := by
  cases q with
  | null => simp [unlinkNext] at h
  | node d nxt =>
    cases nxt with
    | null => simp [unlinkNext] at h
    | node e nn =>
      simp [unlinkNext] at h
      subst h
      simp [nodeCount]

theorem WF_appendAt (l l2 : LinkedList α) (v : α) (i : Int) (h : WF l)
    (hop : l.appendAt v i = .ok l2) : WF l2 := by
  unfold appendAt at hop
  unfold WF at *
  split at hop
  · cases hop
  · split at hop
    · cases hop
      simp [nodeCount, h]
    · split at hop
      · rename_i r hr
        cases hop
        have := WF_atCursor (linkAfter v) 0 1 (nodeCount_linkAfter v) _ _ _ hr
        simp only [] at *
        omega
      · cases hop

theorem WF_update (l l2 : LinkedList α) (v : α) (i : Nat) (h : WF l)
    (hop : l.update v i = .ok l2) : WF l2 := by
  unfold update at hop
  unfold WF at *
  split at hop
  · cases hop
  · split at hop
    · rename_i r hr
      cases hop
      have := WF_atCursor (setData v) 0 0 (nodeCount_setData v) _ _ _ hr
      simp only [] at *
      omega
    · cases hop

end LinkedList

namespace LinkedList

open NodePtr

variable {α : Type}

theorem decSize_succ (n : Nat) : decSize (n + 1) = n := by
  simp [decSize]

/-- Outcome of the loop of `remove(value)`. Either no value behind the current node equals
`value` and nothing is unlinked, or the values behind it split around the first match,
which is dropped. -/
theorem removeWalk_spec [DecidableEq α] (value d : α) (p : NodePtr α) :
    (value ∉ values p ∧ removeWalk value d p = none) ∨
    (∃ pre post r, values p = pre ++ value :: post ∧ value ∉ pre ∧
      removeWalk value d p = some r ∧ values r = d :: (pre ++ post)) := by
  induction p generalizing d with
  | null => left; simp [values, removeWalk]
  | node e nn ih =>
    by_cases he : e = value
    · right
      refine ⟨[], values nn, node d nn, ?_, by simp, ?_, ?_⟩
      · simp [values, he]
      · simp [removeWalk, he]
      · simp [values]
    · rcases ih e with ⟨hn, hw⟩ | ⟨pre, post, r, hv, hpre, hw, hr⟩
      · left
        refine ⟨?_, ?_⟩
        · simp only [values, List.mem_cons, not_or]
          exact ⟨fun h => he h.symm, hn⟩
        · simp [removeWalk, he, hw]
      · right
        refine ⟨e :: pre, post, node d r, ?_, ?_, ?_, ?_⟩
        · simp [values, hv]
        · simp only [List.mem_cons, not_or]
          exact ⟨fun h => he h.symm, hpre⟩
        · simp [removeWalk, he, hw]
        · simp [values, hr]

theorem WF_remove [DecidableEq α] (l : LinkedList α) (v : α) (h : WF l) :
    WF (l.remove v) := by
  unfold remove
  unfold WF at *
  split
  · exact h
  · rename_i d nxt hh
    rw [hh] at h
    simp only [nodeCount] at h
    split
    · simp [h, decSize_succ]
    · rcases removeWalk_spec v d nxt with ⟨_, hw⟩ | ⟨pre, post, r, hv, _, hw, hr⟩
      · rw [hw]
        simp [hh, nodeCount, h]
      · rw [hw]
        simp only [h, decSize_succ]
        rw [nodeCount_eq_length, nodeCount_eq_length, hr, hv]
        simp only [List.length_cons, List.length_append]
        omega

theorem WF_removeAt (l l2 : LinkedList α) (i : Nat) (h : WF l)
    (hop : l.removeAt i = .ok l2) : WF l2 := by
  unfold removeAt at hop
  unfold WF at *
  split at hop
  · cases hop
  · split at hop
    · split at hop
      · cases hop
      · rename_i d nxt hh
        cases hop
        rw [hh] at h
        simp only [nodeCount] at h
        simp [h, decSize_succ]
    · split at hop
      · rename_i r hr
        cases hop
        have := WF_atCursor unlinkNext 1 0 nodeCount_unlinkNext _ _ _ hr
        have e : l.size = nodeCount r + 1 := by omega
        simp [e, decSize_succ]
      · cases hop

theorem WF_swap (l l2 : LinkedList α) (i j : Nat) (h : WF l)
    (hop : l.swap i j = .ok l2) : WF l2 := by
  unfold swap at hop
  unfold WF at *
  split at hop
  · cases hop
  · split at hop
    · cases hop
      exact h
    · split at hop
      · split at hop
        · split at hop
          · rename_i h1 hh1
            split at hop
            · rename_i h2 hh2
              cases hop
              have e1 := WF_atCursor _ 0 0 (nodeCount_setData _) _ _ _ hh1
              have e2 := WF_atCursor _ 0 0 (nodeCount_setData _) _ _ _ hh2
              simp only [] at *
              omega
            · cases hop
          · cases hop
        · cases hop
        · cases hop
      · cases hop
      · cases hop

theorem WF_reverse (l : LinkedList α) (h : WF l) : WF l.reverse := by
  unfold WF reverse at *
  simp [nodeCount_eq_length, values_reverseLoop, values, h]

theorem WF_clear (l : LinkedList α) : WF l.clear := by
  simp [WF, clear, clearLoop_eq, nodeCount]

theorem WF_of_reachable [DecidableEq α] (l : LinkedList α) (h : Reachable l) : WF l := by
  induction h with
  | default => exact WF_empty
  | literal init => exact WF_foldl_append init empty WF_empty
  | array count data l h => exact WF_ofArray count data l h
  | vector other => exact WF_ofVector other
  | copy other _ _ => exact WF_copyLoop other.head empty WF_empty
  | append l v _ ih => exact WF_append l v ih
  | appendAt l v i l2 _ hop ih => exact WF_appendAt l l2 v i ih hop
  | update l v i l2 _ hop ih => exact WF_update l l2 v i ih hop
  | remove l v _ ih => exact WF_remove l v ih
  | removeAt l i l2 _ hop ih => exact WF_removeAt l l2 i ih hop
  | swap l i j l2 _ hop ih => exact WF_swap l l2 i j ih hop
  | reverse l _ ih => exact WF_reverse l ih
  | clear l _ _ => exact WF_clear l

/-- Every list satisfying the invariant is what the constructor from a vector builds from
its values, so the invariant describes exactly the reachable lists. -/
theorem eq_ofVector_of_WF (l : LinkedList α) (h : WF l) : l = ofVector (values l.head) := by
  obtain ⟨hd, sz⟩ := l
  unfold WF at h
  simp only at h
  subst h
  cases hd with
  | null => rfl
  | node d nxt =>
    have hb : ∀ p : NodePtr α, buildRest (values p) = p := by
      intro p
      induction p with
      | null => rfl
      | node d nxt ih => simp [values, buildRest, ih]
    simp [ofVector, values, hb, nodeCount, nodeCount_eq_length]

/-- The class invariant holds exactly for the reachable lists. -/
theorem reachable_iff_WF [DecidableEq α] (l : LinkedList α) : Reachable l ↔ WF l := by
  constructor
  · exact WF_of_reachable l
  · intro h
    rw [eq_ofVector_of_WF l h]
    exact .vector _

end LinkedList

/-! ## Positional lemmas: what the cursor operations do to the sequence of values -/

namespace NodePtr

variable {α : Type}

theorem readAt_ok (n : Nat) (p : NodePtr α) (h : n < nodeCount p) :
    ∃ q x, advance n p = .ok q ∧ deref q = .ok x ∧ (values p)[n]? = some x := by
  induction n generalizing p with
  | zero =>
    cases p with
    | null => simp [nodeCount] at h
    | node d nxt => exact ⟨node d nxt, d, rfl, rfl, by simp [values]⟩
  | succ n ih =>
    cases p with
    | null => simp [nodeCount] at h
    | node d nxt =>
      obtain ⟨q, x, hq, hx, hv⟩ := ih nxt (by simpa [nodeCount] using h)
      exact ⟨q, x, by simpa [advance] using hq, hx, by simpa [values] using hv⟩

theorem setAt_ok (v : α) (n : Nat) (p : NodePtr α) (h : n < nodeCount p) :
    ∃ r, atCursor (setData v) n p = .ok r ∧ values r = (values p).set n v := by
  induction n generalizing p with
  | zero =>
    cases p with
    | null => simp [nodeCount] at h
    | node d nxt => exact ⟨node v nxt, rfl, by simp [values]⟩
  | succ n ih =>
    cases p with
    | null => simp [nodeCount] at h
    | node d nxt =>
      obtain ⟨r, hr, hv⟩ := ih nxt (by simpa [nodeCount] using h)
      exact ⟨node d r, by simp [atCursor, hr], by simp [values, hv]⟩

theorem insertAfter_ok (v : α) (n : Nat) (p : NodePtr α) (h : n < nodeCount p) :
    ∃ r, atCursor (linkAfter v) n p = .ok r ∧
      values r = (values p).take (n + 1) ++ v :: (values p).drop (n + 1) := by
  induction n generalizing p with
  | zero =>
    cases p with
    | null => simp [nodeCount] at h
    | node d nxt => exact ⟨node d (node v nxt), rfl, by simp [values]⟩
  | succ n ih =>
    cases p with
    | null => simp [nodeCount] at h
    | node d nxt =>
      obtain ⟨r, hr, hv⟩ := ih nxt (by simpa [nodeCount] using h)
      exact ⟨node d r, by simp [atCursor, hr], by simp [values, hv]⟩

theorem unlinkAt_ok (n : Nat) (p : NodePtr α) (h : n + 1 < nodeCount p) :
    ∃ r, atCursor unlinkNext n p = .ok r ∧
      values r = (values p).take (n + 1) ++ (values p).drop (n + 2) := by
  induction n generalizing p with
  | zero =>
    cases p with
    | null => simp [nodeCount] at h
    | node d nxt =>
      cases nxt with
      | null => simp [nodeCount] at h
      | node e nn => exact ⟨node d nn, rfl, by simp [values]⟩
  | succ n ih =>
    cases p with
    | null => simp [nodeCount] at h
    | node d nxt =>
      obtain ⟨r, hr, hv⟩ := ih nxt (by simpa [nodeCount] using h)
      exact ⟨node d r, by simp [atCursor, hr], by simp [values, hv]⟩

end NodePtr

namespace LinkedList

open NodePtr

variable {α : Type}

theorem size_ofVector (other : List α) : (ofVector other).size = other.length := by
  cases other <;> rfl

theorem values_ofVector (other : List α) : values (ofVector other).head = other := by
  cases other with
  | nil => rfl
  | cons x rest => simp [ofVector, values, values_buildRest]

/-- For a list shorter than `2 ^ 31` the conversion of `size` to `int` keeps its value. -/
theorem toInt_of_lt (n : Nat) (h : n < 2 ^ 31) : toInt n = (n : Int) := by
  unfold toInt
  have h1 : (0 : Int) ≤ (n : Int) + 2 ^ 31 := by positivity
  have h2 : (n : Int) + 2 ^ 31 < 2 ^ 32 := by
    have : (n : Int) < 2 ^ 31 := by exact_mod_cast h
    omega
  rw [Int.emod_eq_of_lt h1 h2]
  omega

end LinkedList

/-! ## Properties of the operations -/

namespace LinkedList

open NodePtr

variable {α : Type}

/-- C1 (length invariant). For every list reachable from a constructor (default, literal,
array, vector, copy) by a finite sequence of the mutating operations `append(value)`,
`append(value, index)`, `update`, `remove(value)`, `remove(index)`, `swap`, `reverse` and
`clear`, the stored length returned by `len()` equals the number of nodes reached by
following the `next` links from `headNode()`. -/
theorem len_eq_nodeCount_of_reachable [DecidableEq α] (l : LinkedList α)
    (h : Reachable l) : l.len = nodeCount l.headNode :=
  WF_of_reachable l h

/-- Instance of C1: the list built from the vector `1, 2, 3`, after `append(4)`,
`remove(2)` and `reverse()`. -/
theorem len_eq_nodeCount_of_reachable_witness :
    Reachable (((ofVector [1, 2, 3]).append 4).remove 2).reverse ∧
    ((((ofVector [1, 2, 3]).append 4).remove 2).reverse).len =
      nodeCount ((((ofVector [1, 2, 3]).append 4).remove 2).reverse).headNode :=
  ⟨.reverse _ (.remove _ _ (.append _ _ (.vector _))),
   len_eq_nodeCount_of_reachable _ (.reverse _ (.remove _ _ (.append _ _ (.vector _))))⟩

/-- C2 (head and length agree). In every reachable list `head` is `nullptr` if and only if
the stored length is 0; hence the two disjuncts tested by `isEmpty()` have the same truth
value, and `isEmpty()` is true exactly when `len()` is 0. -/
theorem head_null_iff_len_zero [DecidableEq α] (l : LinkedList α) (h : Reachable l) :
    (l.headNode = null ↔ l.len = 0) ∧
    (l.size = 0 ↔ isNull l.head = true) ∧
    (l.isEmpty = true ↔ l.len = 0) := by
  have hwf : l.size = nodeCount l.head := WF_of_reachable l h
  unfold isEmpty len headNode
  cases hh : l.head with
  | null =>
    rw [hh] at hwf
    simp [hwf, nodeCount, isNull]
  | node d nxt =>
    rw [hh] at hwf
    simp [hwf, nodeCount, isNull]

/-- Instance of C2: the list built from the vector `1, 2`, after `remove(index 0)` twice,
is empty with a null head. -/
theorem head_null_iff_len_zero_witness :
    Reachable (⟨null, 0⟩ : LinkedList Nat) ∧
    (((⟨null, 0⟩ : LinkedList Nat).headNode = null ↔ (⟨null, 0⟩ : LinkedList Nat).len = 0) ∧
     ((⟨null, 0⟩ : LinkedList Nat).size = 0 ↔ isNull (⟨null, 0⟩ : LinkedList Nat).head = true) ∧
     ((⟨null, 0⟩ : LinkedList Nat).isEmpty = true ↔ (⟨null, 0⟩ : LinkedList Nat).len = 0)) :=
  have hr : Reachable (⟨null, 0⟩ : LinkedList Nat) :=
    .removeAt ⟨node 2 null, 1⟩ 0 _
      (.removeAt (ofVector [1, 2]) 0 _ (.vector _) rfl) rfl
  ⟨hr, head_null_iff_len_zero _ hr⟩

/-- C3 (`append(value)`). For every list `l` and value `v`, after `append(v)` the element
order is that of `l` followed by `v` as last element, and `len()` has grown by exactly 1.
When `head` was `nullptr` (whatever `size` held), the new node becomes the head. -/
theorem append_order_and_len (l : LinkedList α) (v : α) :
    toVector (l.append v) = toVector l ++ [v] ∧
    (l.append v).len = l.len + 1 ∧
    ∀ s : Nat, (append ⟨null, s⟩ v).headNode = node v null := by
  refine ⟨?_, size_append l v, fun s => rfl⟩
  rw [toVector_eq_values, toVector_eq_values, values_append]

end LinkedList

namespace LinkedList

open NodePtr

variable {α : Type}

/-- The guard of `append(value, index)` decides alone whether `std::out_of_range` is
thrown. -/
theorem appendAt_outOfRange_iff (l : LinkedList α) (v : α) (i : Int) :
    l.appendAt v i = .error .outOfRange ↔ (i < -1 ∨ i > toInt l.size) := by
  unfold appendAt
  constructor
  · intro h
    by_contra hg
    rw [if_neg hg] at h
    split at h
    · cases h
    · rcases Int.lt_or_gt_of_ne ‹¬i = 0› with hneg | hpos
      · have hi : i = -1 := by omega
        subst hi
        cases hh : l.head with
        | null => rw [hh] at h; simp [atCursor, linkAfter] at h
        | node d nxt => rw [hh] at h; simp [atCursor, linkAfter] at h
      · split at h
        · cases h
        · rename_i e he
          cases h
          -- a fault of the walk is never `outOfRange`
          have key : ∀ (n : Nat) (p : NodePtr α),
              atCursor (linkAfter v) n p ≠ .error .outOfRange := by
            intro n
            induction n with
            | zero =>
              intro p
              cases p <;> simp [atCursor, linkAfter]
            | succ n ih =>
              intro p
              cases p with
              | null => simp [atCursor]
              | node d nxt =>
                simp only [atCursor]
                split
                · simp
                · rename_i e2 he2
                  intro hc
                  cases hc
                  exact ih nxt he2
          exact key _ _ he
  · intro hg
    rw [if_pos hg]

/-- Positional insert on a list that satisfies the class invariant and is shorter than
`2 ^ 31`, at an index between 0 and the length. -/
theorem appendAt_ok (l : LinkedList α) (v : α) (i : Int) (hwf : WF l)
    (hlen : l.size < 2 ^ 31) (h0 : 0 ≤ i) (h1 : i ≤ (l.size : Int)) :
    ∃ l2, l.appendAt v i = .ok l2 ∧
      values l2.head = (values l.head).take i.toNat ++ v :: (values l.head).drop i.toNat ∧
      l2.size = l.size + 1 := by
  unfold appendAt
  have hg : ¬ (i < -1 ∨ i > toInt l.size) := by
    rw [toInt_of_lt _ hlen]
    omega
  rw [if_neg hg]
  by_cases hi : i = 0
  · subst hi
    exact ⟨⟨node v l.head, l.size + 1⟩, by simp, by simp [values], rfl⟩
  · rw [if_neg hi]
    have hn : (i - 1).toNat < nodeCount l.head := by
      rw [← hwf]
      omega
    obtain ⟨r, hr, hv⟩ := insertAfter_ok v (i - 1).toNat l.head hn
    have e : (i - 1).toNat + 1 = i.toNat := by omega
    rw [e] at hv
    exact ⟨⟨r, l.size + 1⟩, by rw [hr], hv, rfl⟩

theorem len_eq_size (l : LinkedList α) : l.len = l.size := rfl

/-- C4, as stated, fails on a long list: on the list of `2 ^ 31` zeros built from a
vector, `append(7, 5)` has an index between 0 and the length, yet the guard compares it
with `static_cast<int>(size)`, which is negative, and `std::out_of_range` is thrown. -/
theorem appendAt_long_list_throws :
    Reachable (ofVector (List.replicate (2 ^ 31) (0 : Nat))) ∧
    (0 : Int) ≤ 5 ∧
    (5 : Int) ≤ ((ofVector (List.replicate (2 ^ 31) (0 : Nat))).len : Int) ∧
    (ofVector (List.replicate (2 ^ 31) (0 : Nat))).appendAt 7 5 = .error .outOfRange := by
  refine ⟨.vector _, by decide, ?_, ?_⟩
  · rw [len_eq_size, size_ofVector, List.length_replicate]
    norm_num
  · rw [appendAt_outOfRange_iff, size_ofVector, List.length_replicate]
    right
    unfold toInt
    norm_num

/-- C4 (`append(value, index)`, amended). For every list `l` that satisfies the class
invariant and has fewer than `2 ^ 31` elements, every value `v` and every index `i` with
`0 ≤ i ≤ len(l)`, `append(v, i)` returns normally and yields the first `i` elements of
`l`, then `v`, then the remaining elements of `l` in their order, with length
`len(l) + 1`. -/
theorem appendAt_inserts_at_index (l : LinkedList α) (v : α) (i : Int) (hwf : WF l)
    (hlen : l.len < 2 ^ 31) (h0 : 0 ≤ i) (h1 : i ≤ (l.len : Int)) :
    ∃ l2, l.appendAt v i = .ok l2 ∧
      toVector l2 = (toVector l).take i.toNat ++ v :: (toVector l).drop i.toNat ∧
      l2.len = l.len + 1 := by
  obtain ⟨l2, h, hv, hs⟩ := appendAt_ok l v i hwf hlen h0 h1
  exact ⟨l2, h, by rw [toVector_eq_values, toVector_eq_values, hv], hs⟩

/-- Instance of C4: `[1, 2, 3]` with `append(4, 1)` becomes `[1, 4, 2, 3]` of length 4. -/
theorem appendAt_inserts_at_index_witness :
    WF (ofVector [1, 2, 3]) ∧ (ofVector [1, 2, 3]).len < 2 ^ 31 ∧ (0 : Int) ≤ 1 ∧
    (1 : Int) ≤ ((ofVector [1, 2, 3]).len : Int) ∧
    (∃ l2, (ofVector [1, 2, 3]).appendAt 4 1 = .ok l2 ∧
      toVector l2 = (toVector (ofVector [1, 2, 3])).take (1 : Int).toNat ++
        4 :: (toVector (ofVector [1, 2, 3])).drop (1 : Int).toNat ∧
      l2.len = (ofVector [1, 2, 3]).len + 1) ∧
    ((ofVector [1, 2, 3]).appendAt 4 1).map toVector = .ok [1, 4, 2, 3] :=
  ⟨rfl, by decide, by decide, by decide,
   appendAt_inserts_at_index (ofVector [1, 2, 3]) 4 1 rfl (by decide) (by decide) (by decide),
   rfl⟩

end LinkedList

namespace LinkedList

open NodePtr

variable {α : Type}

/-- C5: the code at index `-1`. The guard of `append(value, index)` lets `-1` through, but
only `index == 0` inserts at the head. On the empty list `append(7, -1)` follows the null
`head`; on `[1, 2]`, `append(9, -1)` puts 9 behind the first node. `append(9, 0)` is the
insertion at the head. -/
theorem appendAt_minus_one_not_at_head :
    (empty : LinkedList Nat).appendAt 7 (-1) = .error .nullDeref ∧
    (ofVector [1, 2]).appendAt 9 (-1) = .ok ⟨node 1 (node 9 (node 2 null)), 3⟩ ∧
    (ofVector [1, 2]).appendAt 9 0 = .ok ⟨node 9 (node 1 (node 2 null)), 3⟩ :=
  ⟨rfl, rfl, rfl⟩

/-- C6, as stated, fails in two places. On the list of `2 ^ 31` ones, `append(7, 0)` has an
index that is neither below `-1` nor above the length, yet `std::out_of_range` is thrown.
On the empty list, `append(7, -1)` has an index in `-1..=len`, yet the call does not
complete: it follows the null `head`. -/
theorem appendAt_range_counterexample :
    ¬ ((0 : Int) < -1 ∨ (0 : Int) > ((ofVector (List.replicate (2 ^ 31) (1 : Nat))).len : Int)) ∧
    (ofVector (List.replicate (2 ^ 31) (1 : Nat))).appendAt 7 0 = .error .outOfRange ∧
    ((-1 : Int) ≤ -1 ∧ (-1 : Int) ≤ ((empty : LinkedList Nat).len : Int)) ∧
    (empty : LinkedList Nat).appendAt 7 (-1) = .error .nullDeref := by
  refine ⟨?_, ?_, ⟨by decide, by decide⟩, rfl⟩
  · rw [len_eq_size, size_ofVector, List.length_replicate]
    norm_num
  · rw [appendAt_outOfRange_iff, size_ofVector, List.length_replicate]
    right
    unfold toInt
    norm_num

/-- C6 (bounds of `append(value, index)`, amended). For every list `l` that satisfies the
class invariant and has fewer than `2 ^ 31` elements, every value `v` and every index
`i`: `append(v, i)` fails with `std::out_of_range` if and only if `i < -1` or
`i > len(l)`, and for every `i` in `0..=len(l)` it returns normally. -/
theorem appendAt_bounds (l : LinkedList α) (v : α) (i : Int) (hwf : WF l)
    (hlen : l.len < 2 ^ 31) :
    (l.appendAt v i = .error .outOfRange ↔ (i < -1 ∨ i > (l.len : Int))) ∧
    (0 ≤ i → i ≤ (l.len : Int) → ∃ l2, l.appendAt v i = .ok l2) := by
  constructor
  · have hs : l.size < 2 ^ 31 := hlen
    rw [appendAt_outOfRange_iff, toInt_of_lt _ hs, len_eq_size]
  · intro h0 h1
    obtain ⟨l2, h, _, _⟩ := appendAt_ok l v i hwf hlen h0 h1
    exact ⟨l2, h⟩

/-- Instance of C6 on the list `[1, 2, 3]` with index 4, which is out of range. -/
theorem appendAt_bounds_witness :
    WF (ofVector [1, 2, 3]) ∧ (ofVector [1, 2, 3]).len < 2 ^ 31 ∧
    (((ofVector [1, 2, 3]).appendAt 9 4 = .error .outOfRange ↔
        ((4 : Int) < -1 ∨ (4 : Int) > ((ofVector [1, 2, 3]).len : Int))) ∧
     ((0 : Int) ≤ 4 → (4 : Int) ≤ ((ofVector [1, 2, 3]).len : Int) →
        ∃ l2, (ofVector [1, 2, 3]).appendAt 9 4 = .ok l2)) ∧
    (ofVector [1, 2, 3]).appendAt 9 4 = .error .outOfRange :=
  ⟨rfl, by decide, appendAt_bounds (ofVector [1, 2, 3]) 9 4 rfl (by decide), rfl⟩

end LinkedList

namespace LinkedList

open NodePtr

variable {α : Type}

theorem get_ok (l : LinkedList α) (i : Nat) (hwf : WF l) (hi : i < l.size) :
    ∃ x, l.get i = .ok x ∧ (values l.head)[i]? = some x := by
  unfold WF at hwf
  obtain ⟨q, x, hq, hx, hv⟩ := readAt_ok i l.head (by omega)
  refine ⟨x, ?_, hv⟩
  unfold get
  rw [if_neg (by omega), hq]
  exact hx

/-- C7 (`get` and `operator[]`). For every list `l` satisfying the class invariant and
every index `i`: when `i < len(l)`, `get(i)` returns the `i`-th element in list order, that
is `toVector()[i]`; `get(i)` fails with `std::out_of_range` exactly when `i ≥ len(l)`;
`operator[]` gives the same outcome as `get` at every index; and `get(0)` on the empty
list fails with `std::out_of_range`. -/
theorem get_returns_ith (l : LinkedList α) (i : Nat) (hwf : WF l) :
    (i < l.len → ∃ x, l.get i = .ok x ∧ (toVector l)[i]? = some x) ∧
    (l.get i = .error .outOfRange ↔ i ≥ l.len) ∧
    l.subscript i = l.get i ∧
    (empty : LinkedList α).get 0 = .error .outOfRange := by
  refine ⟨?_, ?_, rfl, rfl⟩
  · intro hi
    rw [toVector_eq_values]
    exact get_ok l i hwf hi
  · constructor
    · intro h
      by_contra hc
      obtain ⟨x, hx, _⟩ := get_ok l i hwf (by simpa [len] using hc)
      rw [hx] at h
      cases h
    · intro hi
      have hs : i ≥ l.size := hi
      unfold get
      rw [if_pos hs]

/-- Instance of C7 on the list `[4, 5, 6]` at index 2. -/
theorem get_returns_ith_witness :
    WF (ofVector [4, 5, 6]) ∧
    ((2 < (ofVector [4, 5, 6]).len →
        ∃ x, (ofVector [4, 5, 6]).get 2 = .ok x ∧ (toVector (ofVector [4, 5, 6]))[2]? = some x) ∧
     ((ofVector [4, 5, 6]).get 2 = .error .outOfRange ↔ 2 ≥ (ofVector [4, 5, 6]).len) ∧
     (ofVector [4, 5, 6]).subscript 2 = (ofVector [4, 5, 6]).get 2 ∧
     (empty : LinkedList Nat).get 0 = .error .outOfRange) ∧
    (ofVector [4, 5, 6]).get 2 = .ok 6 :=
  ⟨rfl, get_returns_ith (ofVector [4, 5, 6]) 2 rfl, rfl⟩

/-- C8 (`remove(value)`). For every list `l` satisfying the class invariant and every
value `v`: if no element equals `v` (in particular if `l` is empty) the list and its length
are unchanged; otherwise the elements split as `pre`, `v`, `post` with no `v` in `pre`, and
after the call the elements are `pre` followed by `post` and the length is one less. The
call never throws (the model is a total function). -/
theorem remove_deletes_first_match [DecidableEq α] (l : LinkedList α) (v : α)
    (hwf : WF l) :
    (v ∉ toVector l → l.remove v = l) ∧
    (v ∈ toVector l → ∃ pre post, toVector l = pre ++ v :: post ∧ v ∉ pre ∧
      toVector (l.remove v) = pre ++ post ∧ (l.remove v).len + 1 = l.len) := by
  simp only [toVector_eq_values, len]
  unfold WF at hwf
  unfold remove
  cases hh : l.head with
  | null => simp [values]
  | node d nxt =>
    rw [hh] at hwf
    simp only [nodeCount] at hwf
    by_cases hd : d = v
    · subst hd
      simp only [values, if_true, List.mem_cons, true_or, not_true_eq_false, false_implies,
        forall_const, true_and]
      exact ⟨[], values nxt, by simp, by simp, by simp, by simp [hwf, decSize_succ]⟩
    · simp only [if_neg hd]
      rcases removeWalk_spec v d nxt with ⟨hn, hw⟩ | ⟨pre, post, r, hv, hpre, hw, hr⟩
      · rw [hw]
        constructor
        · intro _
          rfl
        · intro hmem
          simp only [values, List.mem_cons] at hmem
          rcases hmem with h | h
          · exact absurd h.symm hd
          · exact absurd h hn
      · rw [hw]
        constructor
        · intro hnot
          exfalso
          apply hnot
          simp [values, hv]
        · intro _
          refine ⟨d :: pre, post, by simp [values, hv], ?_, by simp [hr],
            by simp [hwf, decSize_succ]⟩
          simp only [List.mem_cons, not_or]
          exact ⟨fun h => hd h.symm, hpre⟩

/-- Instance of C8: removing the value 2 from `[1, 2, 3]` yields `[1, 3]` of length 2. -/
theorem remove_deletes_first_match_witness :
    WF (ofVector [1, 2, 3]) ∧
    ((2 ∉ toVector (ofVector [1, 2, 3]) → (ofVector [1, 2, 3]).remove 2 = ofVector [1, 2, 3]) ∧
     (2 ∈ toVector (ofVector [1, 2, 3]) → ∃ pre post,
        toVector (ofVector [1, 2, 3]) = pre ++ 2 :: post ∧ 2 ∉ pre ∧
        toVector ((ofVector [1, 2, 3]).remove 2) = pre ++ post ∧
        ((ofVector [1, 2, 3]).remove 2).len + 1 = (ofVector [1, 2, 3]).len)) ∧
    toVector ((ofVector [1, 2, 3]).remove 2) = [1, 3] ∧
    ((ofVector [1, 2, 3]).remove 2).len = 2 :=
  ⟨rfl, remove_deletes_first_match (ofVector [1, 2, 3]) 2 rfl, rfl, rfl⟩

end LinkedList

namespace LinkedList

open NodePtr

variable {α : Type}

theorem removeAt_ok (l : LinkedList α) (i : Nat) (hwf : WF l) (hi : i < l.size) :
    ∃ l2, l.removeAt i = .ok l2 ∧
      values l2.head = (values l.head).take i ++ (values l.head).drop (i + 1) ∧
      l2.size + 1 = l.size := by
  unfold WF at hwf
  unfold removeAt
  rw [if_neg (by omega)]
  by_cases h0 : i = 0
  · subst h0
    cases hh : l.head with
    | null => rw [hh] at hwf; simp [nodeCount] at hwf; omega
    | node d nxt =>
      rw [hh] at hwf
      simp only [nodeCount] at hwf
      exact ⟨⟨nxt, decSize l.size⟩, by simp, by simp [values], by simp [hwf, decSize_succ]⟩
  · rw [if_neg h0]
    obtain ⟨r, hr, hv⟩ := unlinkAt_ok (i - 1) l.head (by omega)
    have e1 : i - 1 + 1 = i := by omega
    have e2 : i - 1 + 2 = i + 1 := by omega
    rw [e1, e2] at hv
    refine ⟨⟨r, decSize l.size⟩, by rw [hr], hv, ?_⟩
    obtain ⟨n, hn⟩ : ∃ n, l.size = n + 1 := ⟨l.size - 1, by omega⟩
    simp [hn, decSize_succ]

/-- C9 (`remove(index)`). For every list `l` satisfying the class invariant and every
index `i`: when `i < len(l)` the call returns normally and leaves the first `i` elements
followed by the elements after position `i`, in order, with length `len(l) - 1`; it fails
with `std::out_of_range` exactly when `i ≥ len(l)`. -/
theorem removeAt_deletes_ith (l : LinkedList α) (i : Nat) (hwf : WF l) :
    (i < l.len → ∃ l2, l.removeAt i = .ok l2 ∧
      toVector l2 = (toVector l).take i ++ (toVector l).drop (i + 1) ∧
      l2.len + 1 = l.len) ∧
    (l.removeAt i = .error .outOfRange ↔ i ≥ l.len) := by
  constructor
  · intro hi
    obtain ⟨l2, h, hv, hs⟩ := removeAt_ok l i hwf hi
    exact ⟨l2, h, by rw [toVector_eq_values, toVector_eq_values, hv], hs⟩
  · constructor
    · intro h
      by_contra hc
      obtain ⟨l2, hx, _⟩ := removeAt_ok l i hwf (by simpa [len] using hc)
      rw [hx] at h
      cases h
    · intro hi
      have hs : i ≥ l.size := hi
      unfold removeAt
      rw [if_pos hs]

/-- Instance of C9: removing index 1 from `[7, 8, 9]` yields `[7, 9]`; index 3 is out of
range. -/
theorem removeAt_deletes_ith_witness :
    WF (ofVector [7, 8, 9]) ∧
    ((1 < (ofVector [7, 8, 9]).len → ∃ l2, (ofVector [7, 8, 9]).removeAt 1 = .ok l2 ∧
        toVector l2 = (toVector (ofVector [7, 8, 9])).take 1 ++
          (toVector (ofVector [7, 8, 9])).drop (1 + 1) ∧
        l2.len + 1 = (ofVector [7, 8, 9]).len) ∧
     ((ofVector [7, 8, 9]).removeAt 1 = .error .outOfRange ↔ 1 ≥ (ofVector [7, 8, 9]).len)) ∧
    (ofVector [7, 8, 9]).removeAt 1 = .ok ⟨node 7 (node 9 null), 2⟩ ∧
    (ofVector [7, 8, 9]).removeAt 3 = .error .outOfRange :=
  ⟨rfl, removeAt_deletes_ith (ofVector [7, 8, 9]) 1 rfl, rfl, rfl⟩

theorem swap_ok (l : LinkedList α) (i j : Nat) (hwf : WF l) (hi : i < l.size)
    (hj : j < l.size) (hne : i ≠ j) :
    ∃ l2 x y, l.swap i j = .ok l2 ∧ (values l.head)[i]? = some x ∧
      (values l.head)[j]? = some y ∧
      values l2.head = ((values l.head).set i y).set j x ∧ l2.size = l.size := by
  unfold WF at hwf
  obtain ⟨q1, x, hq1, hx, hvx⟩ := readAt_ok i l.head (by omega)
  obtain ⟨q2, y, hq2, hy, hvy⟩ := readAt_ok j l.head (by omega)
  obtain ⟨r1, hr1, hv1⟩ := setAt_ok y i l.head (by omega)
  have hc : j < nodeCount r1 := by
    rw [nodeCount_eq_length, hv1, List.length_set, ← nodeCount_eq_length]
    omega
  obtain ⟨r2, hr2, hv2⟩ := setAt_ok x j r1 hc
  refine ⟨⟨r2, l.size⟩, x, y, ?_, hvx, hvy, by rw [hv2, hv1], rfl⟩
  unfold swap
  rw [if_neg (by omega), if_neg hne]
  simp only [hq1, hq2, hx, hy, hr1, hr2]

/-- C10 (`swap`). For every list `l` satisfying the class invariant and indices `i`, `j`:
when both are below `len(l)` the call returns normally with the same length, position `i`
holds the old value at `j`, position `j` holds the old value at `i`, and every other
position is unchanged; when `i = j` the list is unchanged; the call fails with
`std::out_of_range` exactly when `i ≥ len(l)` or `j ≥ len(l)`. -/
theorem swap_exchanges_values (l : LinkedList α) (i j : Nat) (hwf : WF l) :
    (i < l.len → j < l.len → ∃ l2, l.swap i j = .ok l2 ∧ l2.len = l.len ∧
      ∀ k, (toVector l2)[k]? =
        if k = i then (toVector l)[j]? else if k = j then (toVector l)[i]?
        else (toVector l)[k]?) ∧
    (i < l.len → i = j → l.swap i j = .ok l) ∧
    (l.swap i j = .error .outOfRange ↔ (i ≥ l.len ∨ j ≥ l.len)) := by
  simp only [toVector_eq_values, len]
  have hsame : i < l.size → i = j → l.swap i j = .ok l := by
    intro hi hij
    subst hij
    unfold swap
    rw [if_neg (by omega), if_pos rfl]
  refine ⟨?_, hsame, ?_⟩
  · intro hi hj
    by_cases hij : i = j
    · refine ⟨l, hsame hi hij, rfl, ?_⟩
      subst hij
      intro k
      by_cases hk : k = i
      · simp [hk]
      · simp [hk]
    · obtain ⟨l2, x, y, h, hx, hy, hv, hs⟩ := swap_ok l i j hwf hi hj hij
      refine ⟨l2, h, hs, ?_⟩
      intro k
      have hil : i < (values l.head).length := by
        rw [← nodeCount_eq_length]; unfold WF at hwf; omega
      have hjl : j < (values l.head).length := by
        rw [← nodeCount_eq_length]; unfold WF at hwf; omega
      rw [hv]
      by_cases hkj : k = j
      · subst hkj
        have hki : ¬ k = i := fun h => hij h.symm
        simp [hki, hx, List.getElem?_set, hjl]
      · by_cases hki : k = i
        · subst hki
          simp [hy, List.getElem?_set, hil, Ne.symm hkj]
        · simp [hki, hkj, List.getElem?_set, Ne.symm hkj, Ne.symm hki]
  · constructor
    · intro h
      by_contra hc
      have hi : i < l.size := by omega
      have hj : j < l.size := by omega
      by_cases hij : i = j
      · rw [hsame hi hij] at h
        cases h
      · obtain ⟨l2, _, _, hx, _⟩ := swap_ok l i j hwf hi hj hij
        rw [hx] at h
        cases h
    · intro hg
      unfold swap
      rw [if_pos hg]

/-- Instance of C10: `[1, 2, 3]` with `swap(0, 2)` becomes `[3, 2, 1]`, and `swap(0, 0)`
then leaves `[3, 2, 1]`. -/
theorem swap_exchanges_values_witness :
    WF (ofVector [1, 2, 3]) ∧
    ((0 < (ofVector [1, 2, 3]).len → 2 < (ofVector [1, 2, 3]).len →
        ∃ l2, (ofVector [1, 2, 3]).swap 0 2 = .ok l2 ∧ l2.len = (ofVector [1, 2, 3]).len ∧
          ∀ k, (toVector l2)[k]? =
            if k = 0 then (toVector (ofVector [1, 2, 3]))[2]?
            else if k = 2 then (toVector (ofVector [1, 2, 3]))[0]?
            else (toVector (ofVector [1, 2, 3]))[k]?) ∧
     (0 < (ofVector [1, 2, 3]).len → 0 = 2 →
        (ofVector [1, 2, 3]).swap 0 2 = .ok (ofVector [1, 2, 3])) ∧
     ((ofVector [1, 2, 3]).swap 0 2 = .error .outOfRange ↔
        (0 ≥ (ofVector [1, 2, 3]).len ∨ 2 ≥ (ofVector [1, 2, 3]).len))) ∧
    (ofVector [1, 2, 3]).swap 0 2 = .ok (ofVector [3, 2, 1]) ∧
    (ofVector [3, 2, 1]).swap 0 0 = .ok (ofVector [3, 2, 1]) :=
  ⟨rfl, swap_exchanges_values (ofVector [1, 2, 3]) 0 2 rfl, rfl, rfl⟩

end LinkedList

namespace LinkedList

open NodePtr

variable {α : Type}

theorem update_ok (l : LinkedList α) (v : α) (i : Nat) (hwf : WF l) (hi : i < l.size) :
    ∃ l2, l.update v i = .ok l2 ∧ values l2.head = (values l.head).set i v ∧
      l2.size = l.size := by
  unfold WF at hwf
  obtain ⟨r, hr, hv⟩ := setAt_ok v i l.head (by omega)
  refine ⟨⟨r, l.size⟩, ?_, hv, rfl⟩
  unfold update
  rw [if_neg (by omega), hr]

/-- C11 (`update`). For every list `l` satisfying the class invariant, value `v` and index
`i`: when `i < len(l)` the call returns normally, the length is unchanged, `get(i)` then
returns `v`, `get(k)` is unchanged for every other `k < len(l)`, and the element order is
the old one with position `i` overwritten; the call fails with `std::out_of_range`
exactly when `i ≥ len(l)`. -/
theorem update_overwrites_ith (l : LinkedList α) (v : α) (i : Nat) (hwf : WF l) :
    (i < l.len → ∃ l2, l.update v i = .ok l2 ∧ l2.len = l.len ∧ l2.get i = .ok v ∧
      (∀ k, k ≠ i → k < l.len → l2.get k = l.get k) ∧
      toVector l2 = (toVector l).set i v) ∧
    (l.update v i = .error .outOfRange ↔ i ≥ l.len) := by
  simp only [toVector_eq_values, len]
  constructor
  · intro hi
    obtain ⟨l2, h, hv, hs⟩ := update_ok l v i hwf hi
    have hwf2 : WF l2 := WF_update l l2 v i hwf h
    have hil : i < (values l.head).length := by
      rw [← nodeCount_eq_length]; unfold WF at hwf; omega
    refine ⟨l2, h, hs, ?_, ?_, hv⟩
    · obtain ⟨x, hx, hxv⟩ := get_ok l2 i hwf2 (by omega)
      rw [hv, List.getElem?_set_self hil] at hxv
      cases hxv
      exact hx
    · intro k hk hkl
      obtain ⟨x, hx, hxv⟩ := get_ok l2 k hwf2 (by omega)
      obtain ⟨y, hy, hyv⟩ := get_ok l k hwf hkl
      rw [hv, List.getElem?_set_ne (Ne.symm hk), hyv] at hxv
      cases hxv
      rw [hx, hy]
  · constructor
    · intro h
      by_contra hc
      obtain ⟨l2, hx, _⟩ := update_ok l v i hwf (by omega)
      rw [hx] at h
      cases h
    · intro hi
      unfold update
      rw [if_pos hi]

/-- Instance of C11: `update(9, 1)` on `[4, 5, 6]` gives `[4, 9, 6]`. -/
theorem update_overwrites_ith_witness :
    WF (ofVector [4, 5, 6]) ∧
    ((1 < (ofVector [4, 5, 6]).len → ∃ l2, (ofVector [4, 5, 6]).update 9 1 = .ok l2 ∧
        l2.len = (ofVector [4, 5, 6]).len ∧ l2.get 1 = .ok 9 ∧
        (∀ k, k ≠ 1 → k < (ofVector [4, 5, 6]).len → l2.get k = (ofVector [4, 5, 6]).get k) ∧
        toVector l2 = (toVector (ofVector [4, 5, 6])).set 1 9) ∧
     ((ofVector [4, 5, 6]).update 9 1 = .error .outOfRange ↔ 1 ≥ (ofVector [4, 5, 6]).len)) ∧
    (ofVector [4, 5, 6]).update 9 1 = .ok (ofVector [4, 9, 6]) ∧
    (ofVector [4, 5, 6]).update 9 3 = .error .outOfRange :=
  ⟨rfl, update_overwrites_ith (ofVector [4, 5, 6]) 9 1 rfl, rfl, rfl⟩

theorem values_reverse (l : LinkedList α) :
    values l.reverse.head = (values l.head).reverse := by
  simp [reverse, values_reverseLoop, values]

/-- C12 (reverse involution). For every list `l`, applying `reverse()` twice yields a list
with the same element order and the same length as `l`. -/
theorem reverse_reverse_order_and_len (l : LinkedList α) :
    toVector l.reverse.reverse = toVector l ∧ l.reverse.reverse.len = l.len := by
  refine ⟨?_, rfl⟩
  rw [toVector_eq_values, toVector_eq_values, values_reverse, values_reverse,
    List.reverse_reverse]

theorem deref_toOption_eq_head? (p : NodePtr α) : (deref p).toOption = (values p).head? := by
  cases p <;> rfl

theorem lastData_eq_getLast? (d : α) (p : NodePtr α) :
    some (lastData d p) = (d :: values p).getLast? := by
  induction p generalizing d with
  | null => rfl
  | node e nn ih =>
    simp only [lastData, values]
    rw [ih e, List.getLast?_cons_cons]

theorem tailNode_eq_getLast? (l : LinkedList α) : l.tailNode = (values l.head).getLast? := by
  unfold tailNode
  split
  · rename_i h
    simp [h, values]
  · rename_i d nxt h
    rw [h, lastData_eq_getLast?]
    rfl

/-- C13 (`reverse`). For every list `l`, `reverse()` yields the elements of `l` in exactly
reversed order and leaves `len()` unchanged; the value held by the new head is the value
held by the former tail node, and the value held by the new tail node is the value held
by the former head (both absent when `l` has no node); with a null `head` the call
changes nothing. -/
theorem reverse_order_head_tail (l : LinkedList α) :
    toVector l.reverse = (toVector l).reverse ∧
    l.reverse.len = l.len ∧
    (deref l.reverse.headNode).toOption = l.tailNode ∧
    l.reverse.tailNode = (deref l.headNode).toOption ∧
    ∀ s : Nat, reverse (⟨null, s⟩ : LinkedList α) = ⟨null, s⟩ := by
  refine ⟨?_, rfl, ?_, ?_, fun s => rfl⟩
  · rw [toVector_eq_values, toVector_eq_values, values_reverse]
  · rw [headNode, deref_toOption_eq_head?, tailNode_eq_getLast?, values_reverse,
      List.head?_reverse]
  · rw [headNode, deref_toOption_eq_head?, tailNode_eq_getLast?, values_reverse,
      List.getLast?_reverse]

end LinkedList

namespace NodePtr

variable {α : Type}

theorem values_injective (p q : NodePtr α) (h : values p = values q) : p = q := by
  induction p generalizing q with
  | null =>
    cases q with
    | null => rfl
    | node e nn => simp [values] at h
  | node d nxt ih =>
    cases q with
    | null => simp [values] at h
    | node e nn =>
      simp only [values, List.cons.injEq] at h
      rw [h.1, ih nn h.2]

theorem countLoop_eq [DecidableEq α] (v : α) (p : NodePtr α) (cnt : Nat) :
    countLoop v p cnt = cnt + (values p).count v := by
  induction p generalizing cnt with
  | null => simp [countLoop, values]
  | node d nxt ih =>
    simp only [countLoop, values, ih, List.count_cons]
    by_cases hd : d = v
    · simp [hd]; omega
    · simp [hd]

/-- Outcome of the loop of `find(value)`. Either no value equals `value` and the result is
`nullptr`, or the values split around the first match and the result is the node at that
position. -/
theorem findLoop_spec [DecidableEq α] (v : α) (p : NodePtr α) :
    (v ∉ values p ∧ findLoop v p = null) ∨
    (∃ pre post, values p = pre ++ v :: post ∧ v ∉ pre ∧
      advance pre.length p = .ok (findLoop v p) ∧ deref (findLoop v p) = .ok v ∧
      values (findLoop v p) = v :: post) := by
  induction p with
  | null => left; simp [values, findLoop]
  | node d nxt ih =>
    by_cases hd : d = v
    · right
      subst hd
      exact ⟨[], values nxt, by simp [values], by simp, by simp [findLoop, advance],
        by simp [findLoop, deref], by simp [findLoop, values]⟩
    · rcases ih with ⟨hn, hf⟩ | ⟨pre, post, hv, hpre, ha, hdr, hvf⟩
      · left
        refine ⟨?_, by simp [findLoop, hd, hf]⟩
        simp only [values, List.mem_cons, not_or]
        exact ⟨fun h => hd h.symm, hn⟩
      · right
        refine ⟨d :: pre, post, by simp [values, hv], ?_, ?_, ?_, ?_⟩
        · simp only [List.mem_cons, not_or]
          exact ⟨fun h => hd h.symm, hpre⟩
        · simpa [findLoop, hd, advance] using ha
        · simpa [findLoop, hd] using hdr
        · simpa [findLoop, hd] using hvf

end NodePtr

namespace LinkedList

open NodePtr

variable {α : Type}

theorem ext_values (a b : LinkedList α) (hv : values a.head = values b.head)
    (hs : a.size = b.size) : a = b := by
  obtain ⟨ha, sa⟩ := a
  obtain ⟨hb, sb⟩ := b
  simp only at hv hs
  rw [values_injective ha hb hv, hs]

theorem values_copyLoop (p : NodePtr α) (result : LinkedList α) :
    values (copyLoop p result).head = values result.head ++ values p := by
  induction p generalizing result with
  | null => simp [copyLoop, values]
  | node d nxt ih => simp [copyLoop, ih, values_append, values]

theorem size_copyLoop (p : NodePtr α) (result : LinkedList α) :
    (copyLoop p result).size = result.size + nodeCount p := by
  induction p generalizing result with
  | null => simp [copyLoop, nodeCount]
  | node d nxt ih =>
    simp only [copyLoop, ih, size_append, nodeCount]
    omega

theorem ofVector_append (xs : List α) (x : α) :
    (ofVector xs).append x = ofVector (xs ++ [x]) := by
  apply ext_values
  · rw [values_append, values_ofVector, values_ofVector]
  · rw [size_append, size_ofVector, size_ofVector]
    simp

theorem foldl_append_ofVector (init xs : List α) :
    init.foldl append (ofVector xs) = ofVector (xs ++ init) := by
  induction init generalizing xs with
  | nil => simp
  | cons x rest ih =>
    simp only [List.foldl_cons]
    rw [ofVector_append, ih]
    simp

theorem ofArray_eq (count : Nat) (data : Array α) (hc : count ≤ data.size) :
    ofArray count data = .ok (ofVector (data.toList.take count)) := by
  induction count with
  | zero => rfl
  | succ n ih =>
    have hn : n < data.size := by omega
    have ih2 := ih (by omega)
    unfold ofArray at ih2 ⊢
    rw [List.range_succ, List.foldlM_append, ih2]
    have hget : data[n]? = some data[n] := Array.getElem?_eq_getElem hn
    simp only [bind, Except.bind, List.foldlM, hget, pure, Except.pure]
    rw [ofVector_append]
    congr 2
    rw [List.take_succ]
    simp [hn]

end LinkedList

namespace LinkedList

open NodePtr

variable {α : Type}

/-- C14 (round trip through a vector). For every list `l` satisfying the class invariant,
the list constructed from `l.toVector()` has the same elements in the same order and the
same length as `l` (it is the same pair of members); for the empty list `toVector()` is
empty and the list constructed from it is empty. -/
theorem ofVector_toVector (l : LinkedList α) (hwf : WF l) :
    toVector (ofVector (toVector l)) = toVector l ∧
    (ofVector (toVector l)).len = l.len ∧
    ofVector (toVector l) = l ∧
    toVector (empty : LinkedList α) = [] ∧
    ofVector (toVector (empty : LinkedList α)) = empty := by
  have e : ofVector (toVector l) = l := by
    rw [toVector_eq_values]
    exact (eq_ofVector_of_WF l hwf).symm
  exact ⟨by rw [e], by rw [e], e, rfl, rfl⟩

/-- Instance of C14 on the list obtained from `[1, 2, 3]` by `append(4)`. -/
theorem ofVector_toVector_witness :
    WF ((ofVector [1, 2, 3]).append 4) ∧
    (toVector (ofVector (toVector ((ofVector [1, 2, 3]).append 4))) =
        toVector ((ofVector [1, 2, 3]).append 4) ∧
     (ofVector (toVector ((ofVector [1, 2, 3]).append 4))).len =
        ((ofVector [1, 2, 3]).append 4).len ∧
     ofVector (toVector ((ofVector [1, 2, 3]).append 4)) = (ofVector [1, 2, 3]).append 4 ∧
     toVector (empty : LinkedList Nat) = [] ∧
     ofVector (toVector (empty : LinkedList Nat)) = empty) :=
  ⟨rfl, ofVector_toVector ((ofVector [1, 2, 3]).append 4) rfl⟩

/-- Order and length of `operator+` in the value model: for lists `a` and `b` satisfying
the class invariant, the elements of `concat a b` are those of `a` followed by those of
`b`, its length is `len(a) + len(b)`, and it satisfies the class invariant. -/
theorem concat_order_and_len (a b : LinkedList α) (ha : WF a) (hb : WF b) :
    toVector (concat a b) = toVector a ++ toVector b ∧
    (concat a b).len = a.len + b.len ∧
    WF (concat a b) := by
  refine ⟨?_, ?_, WF_copyLoop _ _ (WF_copyLoop _ _ WF_empty)⟩
  · simp only [toVector_eq_values, concat, copy, values_copyLoop]
    simp [empty, values]
  · unfold WF at ha hb
    simp only [len, concat, copy, size_copyLoop, ha, hb]
    simp [empty]

/-- C17 (`count`). For every list `l` and value `v`, `count(v)` is the number of positions
of `l` whose element equals `v`; it is 0 for the empty list and when `v` is absent; the
member is `const`, so the model is a function of the list that returns only the count.
E.g. `count(5)` on `[5, 5, 2]` is 2. -/
theorem count_eq_occurrences [DecidableEq α] (l : LinkedList α) (v : α) :
    l.count v = (toVector l).count v ∧
    (empty : LinkedList α).count v = 0 ∧
    (l.count v = 0 ↔ v ∉ toVector l) ∧
    (ofVector [5, 5, 2]).count 5 = 2 := by
  have h : l.count v = (toVector l).count v := by
    rw [toVector_eq_values, count, countLoop_eq]
    simp
  refine ⟨h, rfl, ?_, rfl⟩
  rw [h, List.count_eq_zero]

/-- C18 (`find`). For every list `l` and value `v`: if some element equals `v`, the
elements split as `pre`, `v`, `post` with no `v` in `pre`, and `find(v)` is the node at
index `length pre` (the one reached from `headNode()` after that many `next` links),
whose value is `v`; `find(v)` is `nullptr` if and only if no element equals `v`, and if
and only if `count(v)` is 0. The member has no throwing path. -/
theorem find_first_match [DecidableEq α] (l : LinkedList α) (v : α) :
    (v ∈ toVector l → ∃ pre post, toVector l = pre ++ v :: post ∧ v ∉ pre ∧
      advance pre.length l.headNode = .ok (l.find v) ∧ deref (l.find v) = .ok v) ∧
    (l.find v = null ↔ v ∉ toVector l) ∧
    (l.find v = null ↔ l.count v = 0) := by
  have hcount : l.count v = 0 ↔ v ∉ toVector l := by
    rw [toVector_eq_values, count, countLoop_eq]
    simp [List.count_eq_zero]
  have hnull : l.find v = null ↔ v ∉ toVector l := by
    rw [toVector_eq_values]
    unfold find
    rcases findLoop_spec v l.head with ⟨hn, hf⟩ | ⟨pre, post, hv, _, _, hd, _⟩
    · simp [hn, hf]
    · constructor
      · intro h
        rw [h] at hd
        cases hd
      · intro h
        exfalso
        apply h
        simp [hv]
  refine ⟨?_, hnull, by rw [hnull, hcount]⟩
  intro hmem
  rw [toVector_eq_values] at hmem ⊢
  rcases findLoop_spec v l.head with ⟨hn, _⟩ | ⟨pre, post, hv, hpre, ha, hd, _⟩
  · exact absurd hmem hn
  · exact ⟨pre, post, hv, hpre, ha, hd⟩

/-- C19 (constructors from a source sequence). For every source sequence `s`, the lists
constructed from `s` as initializer list, as vector and as array with count `length s`
are equal; the list has `len()` equal to the length of `s` and `toVector()` equal to `s`;
an empty source gives the empty list with a null head. More generally the constructor
from `count` and an array of at least `count` elements builds the list of its first
`count` elements. -/
theorem constructors_build_source (s : List α) (count : Nat) (data : Array α)
    (hc : count ≤ data.size) :
    ofInitList s = ofVector s ∧
    ofArray s.length s.toArray = .ok (ofVector s) ∧
    ofArray count data = .ok (ofVector (data.toList.take count)) ∧
    (ofVector s).len = s.length ∧
    toVector (ofVector s) = s ∧
    ofVector ([] : List α) = empty ∧
    (ofVector ([] : List α)).headNode = null := by
  refine ⟨?_, ?_, ofArray_eq count data hc, size_ofVector s, ?_, rfl, rfl⟩
  · have := foldl_append_ofVector s ([] : List α)
    simpa [ofInitList] using this
  · have := ofArray_eq s.length s.toArray (by simp)
    simpa using this
  · rw [toVector_eq_values, values_ofVector]

/-- Instance of C19 for the source `[7, 8, 9]` and for the first two elements of an array
of three. -/
theorem constructors_build_source_witness :
    2 ≤ (#[4, 5, 6] : Array Nat).size ∧
    (ofInitList [7, 8, 9] = ofVector [7, 8, 9] ∧
     ofArray [7, 8, 9].length [7, 8, 9].toArray = .ok (ofVector [7, 8, 9]) ∧
     ofArray 2 #[4, 5, 6] = .ok (ofVector ((#[4, 5, 6] : Array Nat).toList.take 2)) ∧
     (ofVector [7, 8, 9]).len = [7, 8, 9].length ∧
     toVector (ofVector [7, 8, 9]) = [7, 8, 9] ∧
     ofVector ([] : List Nat) = empty ∧
     (ofVector ([] : List Nat)).headNode = null) :=
  ⟨by decide, constructors_build_source [7, 8, 9] 2 #[4, 5, 6] (by decide)⟩

end LinkedList

/-! ## The state-passing programs agree with the functions -/

namespace Member

open NodePtr

variable {α β γ : Type}

theorem seq_apply (m : Member α β) (f : β → Member α γ) (l : LinkedList α) :
    (m >>= f) l = match m l with
      | (.ok x, l2) => f x l2
      | (.error e, l2) => (.error e, l2) := rfl

theorem liftFault_apply (r : Except Fault β) (l : LinkedList α) :
    liftFault r l = (r, l) := by
  cases r <;> rfl

theorem get_eq (l : LinkedList α) (i : Nat) : Member.get i l = (LinkedList.get l i, l) := by
  unfold Member.get LinkedList.get
  simp only [seq_apply, readThis]
  split
  · rfl
  · simp only [seq_apply, liftFault_apply]
    cases advance i l.head with
    | ok q => simp
    | error e => simp

theorem update_eq (l : LinkedList α) (v : α) (i : Nat) :
    Member.update v i l =
      match LinkedList.update l v i with
      | .ok l2 => (.ok (), l2)
      | .error e => (.error e, l) := by
  unfold Member.update LinkedList.update
  simp only [seq_apply, readThis]
  split
  · rfl
  · simp only [seq_apply, liftFault_apply]
    cases atCursor (setData v) i l.head with
    | ok q => rfl
    | error e => rfl

theorem appendAt_eq (l : LinkedList α) (v : α) (i : Int) :
    Member.appendAt v i l =
      match LinkedList.appendAt l v i with
      | .ok l2 => (.ok (), l2)
      | .error e => (.error e, l) := by
  unfold Member.appendAt LinkedList.appendAt
  simp only [seq_apply, readThis]
  split
  · rfl
  · split
    · rfl
    · simp only [seq_apply, liftFault_apply]
      cases atCursor (linkAfter v) (i - 1).toNat l.head with
      | ok q => rfl
      | error e => rfl

theorem removeAt_eq (l : LinkedList α) (i : Nat) :
    Member.removeAt i l =
      match LinkedList.removeAt l i with
      | .ok l2 => (.ok (), l2)
      | .error e => (.error e, l) := by
  unfold Member.removeAt LinkedList.removeAt
  simp only [seq_apply, readThis]
  split
  · rfl
  · split
    · cases l.head with
      | null => rfl
      | node d nxt => rfl
    · simp only [seq_apply, liftFault_apply]
      cases atCursor unlinkNext (i - 1) l.head with
      | ok q => rfl
      | error e => rfl

theorem subscript_eq (l : LinkedList α) (i : Nat) :
    Member.subscript i l = (LinkedList.subscript l i, l) := by
  unfold Member.subscript LinkedList.subscript
  simp only [seq_apply, readThis]
  split
  · rfl
  · simp only [seq_apply, liftFault_apply]
    cases advance i l.head with
    | ok q => simp
    | error e => simp

theorem lt_nodeCount_of_advance_deref (n : Nat) (p q : NodePtr α) (d : α)
    (h1 : advance n p = .ok q) (h2 : deref q = .ok d) : n < nodeCount p := by
  induction n generalizing p with
  | zero =>
    simp [advance] at h1
    subst h1
    cases p with
    | null => simp [deref] at h2
    | node e nn => simp [nodeCount]
  | succ n ih =>
    cases p with
    | null => simp [advance] at h1
    | node e nn =>
      have := ih nn (by simpa [advance] using h1)
      simp [nodeCount, this]

theorem swap_eq (l : LinkedList α) (j1 j2 : Nat) :
    Member.swap j1 j2 l =
      match LinkedList.swap l j1 j2 with
      | .ok l2 => (.ok (), l2)
      | .error e => (.error e, l) := by
  unfold Member.swap LinkedList.swap
  simp only [seq_apply, readThis]
  split
  · rfl
  · split
    · rfl
    · simp only [seq_apply, liftFault_apply]
      cases h1 : advance j1 l.head with
      | error e =>
        cases h2 : advance j2 l.head <;> simp
      | ok node1 =>
        cases h2 : advance j2 l.head with
        | error e => simp
        | ok node2 =>
          cases h3 : deref node1 with
          | error e => cases h4 : deref node2 <;> simp [h3, h4]
          | ok temp =>
            cases h4 : deref node2 with
            | error e => simp [h3, h4]
            | ok d2 =>
              cases h5 : atCursor (setData d2) j1 l.head with
              | error e => simp [h3, h4, h5]
              | ok r1 =>
                have hc : j2 < nodeCount r1 := by
                  have := LinkedList.WF_atCursor (setData d2) 0 0
                    (LinkedList.nodeCount_setData d2) _ _ _ h5
                  have := lt_nodeCount_of_advance_deref j2 l.head node2 d2 h2 h4
                  omega
                obtain ⟨r2, hr2, _⟩ := setAt_ok temp j2 r1 hc
                simp [h3, h4, h5, setHead, readThis, hr2]

end Member

namespace LinkedList

open NodePtr

variable {α : Type}

theorem removeAt_append (l : LinkedList α) (v : α) (hwf : WF l) :
    (l.append v).removeAt l.size = .ok l := by
  obtain ⟨l2, h, hv, hs⟩ := removeAt_ok (l.append v) l.size (WF_append l v hwf)
    (by rw [size_append]; omega)
  rw [h]
  congr 1
  apply ext_values
  · have hl : (values l.head).length = l.size := by
      rw [← nodeCount_eq_length]; exact hwf.symm
    have hd : (values l.head ++ [v]).drop (l.size + 1) = [] :=
      List.drop_eq_nil_of_le (by simp [hl])
    rw [hv, values_append, List.take_left' hl, hd]
    simp
  · rw [size_append] at hs
    omega

theorem removeAt_appendAt (l : LinkedList α) (v : α) (i : Int) (hwf : WF l)
    (hlen : l.size < 2 ^ 31) (h0 : 0 ≤ i) (h1 : i ≤ (l.size : Int)) :
    ∃ l2, l.appendAt v i = .ok l2 ∧ l2.removeAt i.toNat = .ok l := by
  obtain ⟨l2, h, hv, hs⟩ := appendAt_ok l v i hwf hlen h0 h1
  refine ⟨l2, h, ?_⟩
  obtain ⟨l3, h3, hv3, hs3⟩ := removeAt_ok l2 i.toNat (WF_appendAt l l2 v i hwf h)
    (by omega)
  rw [h3]
  congr 1
  apply ext_values
  · have hk : i.toNat ≤ (values l.head).length := by
      rw [← nodeCount_eq_length, ← hwf]; omega
    have hl : ((values l.head).take i.toNat).length = i.toNat := by
      rw [List.length_take]; omega
    have hl2 : ((values l.head).take i.toNat ++ [v]).length = i.toNat + 1 := by
      rw [List.length_append, hl]; rfl
    rw [hv3, hv, List.take_left' hl]
    have e : (values l.head).take i.toNat ++ v :: (values l.head).drop i.toNat =
        ((values l.head).take i.toNat ++ [v]) ++ (values l.head).drop i.toNat := by simp
    rw [e, List.drop_left' hl2, List.take_append_drop]
  · omega

/-- C16, as stated, fails on a long list: on the list of `2 ^ 31` twos built from a vector,
`append(7, 3)` has an index between 0 and the length, yet it throws `std::out_of_range`
and inserts nothing; `remove(index 3)` then succeeds and leaves a list that is one
element shorter than the original. -/
theorem appendAt_removeAt_long_list :
    (0 : Int) ≤ 3 ∧
    (3 : Int) ≤ ((ofVector (List.replicate (2 ^ 31) (2 : Nat))).len : Int) ∧
    (ofVector (List.replicate (2 ^ 31) (2 : Nat))).appendAt 7 3 = .error .outOfRange ∧
    ∃ l3, (ofVector (List.replicate (2 ^ 31) (2 : Nat))).removeAt 3 = .ok l3 ∧
      l3.size + 1 = (ofVector (List.replicate (2 ^ 31) (2 : Nat))).size := by
  have hsz : (ofVector (List.replicate (2 ^ 31) (2 : Nat))).size = 2 ^ 31 := by
    rw [size_ofVector, List.length_replicate]
  refine ⟨by decide, ?_, ?_, ?_⟩
  · rw [len_eq_size, hsz]
    norm_num
  · rw [appendAt_outOfRange_iff, hsz]
    right
    unfold toInt
    norm_num
  · obtain ⟨l3, h, _, hs⟩ := removeAt_ok (ofVector (List.replicate (2 ^ 31) (2 : Nat))) 3
      (WF_ofVector _) (by rw [hsz]; norm_num)
    exact ⟨l3, h, hs⟩

/-- C16 (append/remove symmetry, amended). For every list `l` satisfying the class
invariant and every value `v`, `append(v)` followed by `remove(index len(l))` restores
the original list (order and length); and when `len(l) < 2 ^ 31`, for every index `i`
with `0 ≤ i ≤ len(l)`, `append(v, i)` returns normally and a following `remove(index i)`
restores the original list. -/
theorem append_then_remove_restores (l : LinkedList α) (v : α) (hwf : WF l) :
    (l.append v).removeAt l.len = .ok l ∧
    (l.len < 2 ^ 31 → ∀ i : Int, 0 ≤ i → i ≤ (l.len : Int) →
      ∃ l2, l.appendAt v i = .ok l2 ∧ l2.removeAt i.toNat = .ok l) :=
  ⟨removeAt_append l v hwf, fun hlen i h0 h1 => removeAt_appendAt l v i hwf hlen h0 h1⟩

/-- Instance of C16 on the list `[1, 2, 3]` with the value 4 and the index 1. -/
theorem append_then_remove_restores_witness :
    WF (ofVector [1, 2, 3]) ∧
    (((ofVector [1, 2, 3]).append 4).removeAt (ofVector [1, 2, 3]).len = .ok (ofVector [1, 2, 3]) ∧
     ((ofVector [1, 2, 3]).len < 2 ^ 31 → ∀ i : Int, 0 ≤ i → i ≤ ((ofVector [1, 2, 3]).len : Int) →
        ∃ l2, (ofVector [1, 2, 3]).appendAt 4 i = .ok l2 ∧
          l2.removeAt i.toNat = .ok (ofVector [1, 2, 3]))) ∧
    (ofVector [1, 2, 3]).appendAt 4 1 = .ok (ofVector [1, 4, 2, 3]) ∧
    (ofVector [1, 4, 2, 3]).removeAt 1 = .ok (ofVector [1, 2, 3]) :=
  ⟨rfl, append_then_remove_restores (ofVector [1, 2, 3]) 4 rfl, rfl, rfl⟩

/-- C20 (atomicity on error). For every list `l` (whatever its members hold), value `v`
and indices: `get` and `operator[]` never write to the object; whenever `update`,
`remove(index)`, `swap` or `append(value, index)` leaves by `std::out_of_range`, the
object, that is its chain of nodes and its stored length, is exactly what it was before
the call; and `swap` with one index out of range throws without any write, even when
the other index is valid. -/
theorem outOfRange_leaves_list_unchanged (l : LinkedList α) (v : α) (i j : Nat)
    (k : Int) :
    (Member.get i l).2 = l ∧
    (Member.subscript i l).2 = l ∧
    ((Member.update v i l).1 = .error .outOfRange → (Member.update v i l).2 = l) ∧
    ((Member.removeAt i l).1 = .error .outOfRange → (Member.removeAt i l).2 = l) ∧
    ((Member.swap i j l).1 = .error .outOfRange → (Member.swap i j l).2 = l) ∧
    ((Member.appendAt v k l).1 = .error .outOfRange → (Member.appendAt v k l).2 = l) ∧
    ((i ≥ l.len ∨ j ≥ l.len) → Member.swap i j l = (.error .outOfRange, l)) := by
  refine ⟨by rw [Member.get_eq], by rw [Member.subscript_eq], ?_, ?_, ?_, ?_, ?_⟩
  · rw [Member.update_eq]
    cases l.update v i <;> simp
  · rw [Member.removeAt_eq]
    cases l.removeAt i <;> simp
  · rw [Member.swap_eq]
    cases l.swap i j <;> simp
  · rw [Member.appendAt_eq]
    cases l.appendAt v k <;> simp
  · intro hg
    have hs : i ≥ l.size ∨ j ≥ l.size := hg
    rw [Member.swap_eq]
    unfold swap
    rw [if_pos hs]

end LinkedList

/-! ## `operator+` on nodes in memory -/

namespace OnHeap

variable {α : Type}

theorem isChain_nil (h : Heap α) (p : Option Nat) : IsChain h p [] ↔ p = none := by
  simp [IsChain]

theorem isChain_cons (h : Heap α) (p : Option Nat) (c : Nat) (x : α)
    (rest : List (Nat × α)) :
    IsChain h p ((c, x) :: rest) ↔
      p = some c ∧ ∃ n, h[c]? = some n ∧ n.data = x ∧ IsChain h n.next rest := by
  simp only [IsChain]
  cases h[c]? with
  | none => simp
  | some n => simp

theorem getElem?_setNext_ne (h : Heap α) (c a : Nat) (nx : Option Nat) (hne : a ≠ c) :
    (setNext h c nx)[a]? = h[a]? := by
  unfold setNext
  split
  · rw [List.getElem?_set_ne (Ne.symm hne)]
  · rfl

theorem getElem?_setNext_self (h : Heap α) (c : Nat) (nx : Option Nat) (n : HeapNode α)
    (hc : h[c]? = some n) : (setNext h c nx)[c]? = some ⟨n.data, nx⟩ := by
  unfold setNext
  rw [hc]
  have hlt : c < h.length := by
    by_contra hge
    rw [List.getElem?_eq_none (by omega)] at hc
    cases hc
  simp only []
  rw [List.getElem?_set_self hlt]

theorem length_setNext (h : Heap α) (c : Nat) (nx : Option Nat) :
    (setNext h c nx).length = h.length := by
  unfold setNext
  split <;> simp

/-- The nodes of a chain lie in the store. -/
theorem isChain_addr_lt (h : Heap α) (p : Option Nat) (l : List (Nat × α))
    (hc : IsChain h p l) : ∀ c ∈ l.map Prod.fst, c < h.length := by
  induction l generalizing p with
  | nil => simp
  | cons cx rest ih =>
    obtain ⟨c, x⟩ := cx
    rw [isChain_cons] at hc
    obtain ⟨_, n, hn, _, hrest⟩ := hc
    intro a ha
    simp only [List.map_cons, List.mem_cons] at ha
    rcases ha with rfl | ha
    · by_contra hge
      rw [List.getElem?_eq_none (by omega)] at hn
      cases hn
    · exact ih _ hrest a ha

/-- A chain is the same chain in every store that agrees on its nodes. -/
theorem isChain_transfer (h h2 : Heap α) (p : Option Nat) (l : List (Nat × α))
    (hc : IsChain h p l) (hagree : ∀ c ∈ l.map Prod.fst, h2[c]? = h[c]?) :
    IsChain h2 p l := by
  induction l generalizing p with
  | nil => exact hc
  | cons cx rest ih =>
    obtain ⟨c, x⟩ := cx
    rw [isChain_cons] at hc ⊢
    obtain ⟨hp, n, hn, hx, hrest⟩ := hc
    refine ⟨hp, n, ?_, hx, ih _ hrest ?_⟩
    · rw [hagree c (by simp), hn]
    · intro a ha
      exact hagree a (by simp [ha])

/-- The walk of `append(value)` ends on the last node of the chain, and linking a node
that is not in the chain behind it lengthens the chain by that node. -/
theorem lastNode_link (h : Heap α) (l : List (Nat × α)) (c fuel n : Nat) (v : α)
    (hc : IsChain h (some c) l) (hfuel : l.length ≤ fuel)
    (hnd : (l.map Prod.fst).Nodup) (hn : n ∉ l.map Prod.fst)
    (hcell : h[n]? = some ⟨v, none⟩) :
    ∃ a, lastNode h fuel c = some a ∧ a ∈ l.map Prod.fst ∧
      IsChain (setNext h a (some n)) (some c) (l ++ [(n, v)]) := by
  induction l generalizing c fuel with
  | nil => simp [IsChain] at hc
  | cons cx rest ih =>
    obtain ⟨c1, x⟩ := cx
    rw [isChain_cons] at hc
    obtain ⟨hp, nd, hnd1, hx, hrest⟩ := hc
    cases hp
    obtain ⟨f, rfl⟩ : ∃ f, fuel = f + 1 := ⟨fuel - 1, by simp at hfuel; omega⟩
    simp only [List.map_cons, List.nodup_cons, List.mem_cons, not_or] at hnd hn
    cases hnx : nd.next with
    | none =>
      rw [hnx] at hrest
      cases rest with
      | cons cy rest2 =>
        obtain ⟨c2, y⟩ := cy
        rw [isChain_cons] at hrest
        cases hrest.1
      | nil =>
        refine ⟨c, by simp [lastNode, hnd1, hnx], by simp, ?_⟩
        simp only [List.cons_append, List.nil_append]
        rw [isChain_cons]
        refine ⟨rfl, ⟨nd.data, some n⟩, getElem?_setNext_self h c _ nd hnd1, hx, ?_⟩
        rw [isChain_cons]
        refine ⟨rfl, ⟨v, none⟩, ?_, rfl, by simp [IsChain]⟩
        rw [getElem?_setNext_ne h c n _ hn.1, hcell]
    | some c2 =>
      rw [hnx] at hrest
      have hlen : rest.length ≤ f := by simp at hfuel; omega
      obtain ⟨a, ha, hmem, hch⟩ := ih c2 f hrest hlen hnd.2 hn.2
      have hac : a ≠ c := fun e => hnd.1 (e ▸ hmem)
      refine ⟨a, by simp [lastNode, hnd1, hnx, ha], by simp [hmem], ?_⟩
      simp only [List.cons_append]
      rw [isChain_cons]
      refine ⟨rfl, nd, ?_, hx, ?_⟩
      · rw [getElem?_setNext_ne h a c _ (Ne.symm hac), hnd1]
      · rw [hnx]
        exact hch

end OnHeap

namespace OnHeap

variable {α : Type}

/-- `append(value)` on an object whose chain has distinct nodes: the chain gains one node,
at the address that was free, `size` grows by 1, and no node outside the chain is
written. -/
theorem append_spec (fuel : Nat) (h : Heap α) (r : HeapList) (rs : List (Nat × α))
    (v : α) (hc : IsChain h r.head rs) (hfuel : rs.length ≤ fuel)
    (hnd : (rs.map Prod.fst).Nodup) :
    ∃ h2 r2, append fuel h r v = some (h2, r2) ∧
      IsChain h2 r2.head (rs ++ [(h.length, v)]) ∧ r2.size = r.size + 1 ∧
      h2.length = h.length + 1 ∧
      ∀ a, a < h.length → a ∉ rs.map Prod.fst → h2[a]? = h[a]? := by
  have hlt := isChain_addr_lt h r.head rs hc
  have hnew : h.length ∉ rs.map Prod.fst := fun hm => Nat.lt_irrefl _ (hlt _ hm)
  have hcell : (h ++ [(⟨v, none⟩ : HeapNode α)])[h.length]? = some ⟨v, none⟩ :=
    List.getElem?_concat_length h _
  have hold : ∀ a, a < h.length → (h ++ [(⟨v, none⟩ : HeapNode α)])[a]? = h[a]? :=
    fun a ha => List.getElem?_append_left ha
  unfold append newNode
  cases hh : r.head with
  | none =>
    rw [hh] at hc
    cases rs with
    | cons cx rest =>
      obtain ⟨c, x⟩ := cx
      rw [isChain_cons] at hc
      cases hc.1
    | nil =>
      refine ⟨_, _, rfl, ?_, rfl, by simp, fun a ha _ => hold a ha⟩
      simp only [List.nil_append]
      rw [isChain_cons]
      exact ⟨rfl, ⟨v, none⟩, hcell, rfl, by simp [IsChain]⟩
  | some hd =>
    rw [hh] at hc
    have hc1 : IsChain (h ++ [(⟨v, none⟩ : HeapNode α)]) (some hd) rs :=
      isChain_transfer h _ _ rs hc (fun c hm => hold c (hlt c hm))
    obtain ⟨a, ha, hmem, hch⟩ :=
      lastNode_link (h ++ [(⟨v, none⟩ : HeapNode α)]) rs hd fuel h.length v hc1 hfuel hnd
        hnew hcell
    simp only [ha]
    refine ⟨_, _, rfl, hch, rfl, by simp [length_setNext], ?_⟩
    intro b hb hbn
    have hba : b ≠ a := fun e => hbn (e ▸ hmem)
    rw [getElem?_setNext_ne _ a b _ hba, hold b hb]

/-- The copying loop, started with `current` at the head of a chain of nodes below the
address `base` and with a result whose nodes are distinct and at or above `base`: it
returns, the result gains the values of the chain in order, all in nodes at or above
`base`, and no node below `base` is written. -/
theorem copyLoop_spec (fuel base : Nat) (src : List (Nat × α)) :
    ∀ (n : Nat) (h : Heap α) (cur : Option Nat) (r : HeapList) (rs : List (Nat × α)),
      IsChain h cur src → IsChain h r.head rs → (rs.map Prod.fst).Nodup →
      (∀ c ∈ rs.map Prod.fst, base ≤ c) → (∀ c ∈ src.map Prod.fst, c < base) →
      base ≤ h.length → src.length ≤ n → rs.length + src.length ≤ fuel →
      ∃ h2 r2 rs2, copyLoop fuel n h cur r = some (h2, r2) ∧
        IsChain h2 r2.head rs2 ∧
        rs2.map Prod.snd = rs.map Prod.snd ++ src.map Prod.snd ∧
        r2.size = r.size + src.length ∧ (rs2.map Prod.fst).Nodup ∧
        (∀ c ∈ rs2.map Prod.fst, base ≤ c) ∧ base ≤ h2.length ∧
        ∀ a, a < base → h2[a]? = h[a]? := by
  induction src with
  | nil =>
    intro n h cur r rs hsrc hrs hnd hfresh _ hb _ _
    rw [isChain_nil] at hsrc
    subst hsrc
    refine ⟨h, r, rs, ?_, hrs, by simp, by simp, hnd, hfresh, hb, fun _ _ => rfl⟩
    cases n <;> rfl
  | cons cx rest ih =>
    intro n h cur r rs hsrc hrs hnd hfresh hold hb hn hfuel
    obtain ⟨c, x⟩ := cx
    rw [isChain_cons] at hsrc
    obtain ⟨hcur, nd, hcell, hx, hrest⟩ := hsrc
    subst hcur
    obtain ⟨m, rfl⟩ : ∃ m, n = m + 1 := ⟨n - 1, by simp at hn; omega⟩
    simp only [List.map_cons, List.mem_cons, forall_eq_or_imp] at hold
    have hcb : c < base := hold.1
    have hnotin : ∀ a, a < base → a ∉ rs.map Prod.fst := fun a ha hm =>
      Nat.lt_irrefl _ (Nat.lt_of_lt_of_le ha (hfresh a hm))
    obtain ⟨h1, r1, happ, hch1, hsz1, hlen1, hframe1⟩ :=
      append_spec fuel h r rs nd.data hrs (by simp at hfuel; omega) hnd
    have hframe : ∀ a, a < base → h1[a]? = h[a]? := fun a ha =>
      hframe1 a (by omega) (hnotin a ha)
    have hlt := isChain_addr_lt h r.head rs hrs
    have hrest1 : IsChain h1 nd.next rest :=
      isChain_transfer h h1 _ rest hrest (fun a ha => hframe a (hold.2 a ha))
    have hnd1 : ((rs ++ [(h.length, nd.data)]).map Prod.fst).Nodup := by
      simp only [List.map_append, List.map_cons, List.map_nil]
      rw [List.nodup_append]
      refine ⟨hnd, by simp, ?_⟩
      intro a ha hb2
      simp only [List.mem_singleton] at hb2
      subst hb2
      exact Nat.lt_irrefl _ (hlt _ ha)
    have hfresh1 : ∀ a ∈ (rs ++ [(h.length, nd.data)]).map Prod.fst, base ≤ a := by
      intro a ha
      simp only [List.map_append, List.map_cons, List.map_nil, List.mem_append,
        List.mem_singleton] at ha
      rcases ha with ha | rfl
      · exact hfresh a ha
      · exact hb
    obtain ⟨h2, r2, rs2, hloop, hch2, hval2, hsz2, hnd2, hfresh2, hb2, hframe2⟩ :=
      ih m h1 nd.next r1 (rs ++ [(h.length, nd.data)]) hrest1 hch1 hnd1 hfresh1 hold.2
        (by omega) (by simp at hn; omega) (by simp at hfuel ⊢; omega)
    refine ⟨h2, r2, rs2, ?_, hch2, ?_, ?_, hnd2, hfresh2, hb2, ?_⟩
    · simp only [copyLoop, hcell, happ, hframe c hcb]
      exact hloop
    · rw [hval2]
      simp [hx]
    · rw [hsz2, hsz1]
      simp
      omega
    · intro a ha
      rw [hframe2 a ha, hframe a ha]

end OnHeap

namespace OnHeap

variable {α : Type}

/-- C15 (`operator+`). For every pair of lists `A` and `B` satisfying the class invariant,
`A + B` has the elements of `A` followed by the elements of `B` and length
`len(A) + len(B)`. In memory: whatever the store and the nodes of the two operands,
with fuel for `len(A) + len(B)` iterations the call returns an object that is the list
`A + B`, all of whose nodes are newly allocated (none is a node of an operand); no node
that existed before the call is written, and both operands are the same lists in the
same nodes after the call as before. -/
theorem concat_new_list_operands_unchanged (A B : LinkedList α)
    (hA : LinkedList.WF A) (hB : LinkedList.WF B) :
    LinkedList.toVector (LinkedList.concat A B) =
      LinkedList.toVector A ++ LinkedList.toVector B ∧
    (LinkedList.concat A B).len = A.len + B.len ∧
    ∀ (h : Heap α) (a b : HeapList) (as bs : List (Nat × α)) (fuel : Nat),
      Represents h a as A → Represents h b bs B → A.len + B.len ≤ fuel →
      ∃ h2 r rs, concat fuel h a b = some (h2, r) ∧
        Represents h2 r rs (LinkedList.concat A B) ∧
        (∀ c ∈ rs.map Prod.fst,
          h.length ≤ c ∧ c ∉ as.map Prod.fst ∧ c ∉ bs.map Prod.fst) ∧
        (∀ c, c < h.length → h2[c]? = h[c]?) ∧
        Represents h2 a as A ∧ Represents h2 b bs B := by
  obtain ⟨hord, hlen, _⟩ := LinkedList.concat_order_and_len A B hA hB
  refine ⟨hord, hlen, ?_⟩
  intro h a b as bs fuel ha hb hfuel
  obtain ⟨hca, hva, hsa⟩ := ha
  obtain ⟨hcb, hvb, hsb⟩ := hb
  have hla : as.length = A.size := by
    have := congrArg List.length hva
    rw [List.length_map, ← NodePtr.nodeCount_eq_length] at this
    rw [this]
    exact hA.symm
  have hlb : bs.length = B.size := by
    have := congrArg List.length hvb
    rw [List.length_map, ← NodePtr.nodeCount_eq_length] at this
    rw [this]
    exact hB.symm
  have hfuel2 : A.size + B.size ≤ fuel := hfuel
  have halt := isChain_addr_lt h a.head as hca
  have hblt := isChain_addr_lt h b.head bs hcb
  obtain ⟨h1, r1, rs1, hloop1, hch1, hval1, hsz1, hnd1, hfresh1, hb1, hframe1⟩ :=
    copyLoop_spec fuel h.length as fuel h a.head ⟨none, 0⟩ [] hca (by simp [IsChain])
      (by simp) (by simp) halt (Nat.le_refl _) (by omega) (by simp; omega)
  have hcb1 : IsChain h1 b.head bs :=
    isChain_transfer h h1 _ bs hcb (fun c hc => hframe1 c (hblt c hc))
  have hl1 : rs1.length = as.length := by
    have := congrArg List.length hval1
    simpa using this
  obtain ⟨h2, r2, rs2, hloop2, hch2, hval2, hsz2, _, hfresh2, _, hframe2⟩ :=
    copyLoop_spec fuel h.length bs fuel h1 b.head r1 rs1 hcb1 hch1 hnd1 hfresh1 hblt hb1
      (by omega) (by omega)
  have hframe : ∀ c, c < h.length → h2[c]? = h[c]? := fun c hc => by
    rw [hframe2 c hc, hframe1 c hc]
  refine ⟨h2, r2, rs2, ?_, ⟨hch2, ?_, ?_⟩, ?_, hframe, ⟨?_, hva, hsa⟩, ⟨?_, hvb, hsb⟩⟩
  · unfold concat copy
    simp only [hloop1]
    exact hloop2
  · rw [hval2, hval1, hva, hvb]
    rw [LinkedList.toVector_eq_values, LinkedList.toVector_eq_values,
      LinkedList.toVector_eq_values] at hord
    simp [hord]
  · have e : (LinkedList.concat A B).size = A.size + B.size := hlen
    rw [hsz2, hsz1, e]
    simp only []
    omega
  · intro c hc
    have hge := hfresh2 c hc
    exact ⟨hge, fun hm => Nat.lt_irrefl _ (Nat.lt_of_lt_of_le (halt c hm) hge),
      fun hm => Nat.lt_irrefl _ (Nat.lt_of_lt_of_le (hblt c hm) hge)⟩
  · exact isChain_transfer h h2 _ as hca (fun c hc => hframe c (halt c hc))
  · exact isChain_transfer h h2 _ bs hcb (fun c hc => hframe c (hblt c hc))

/-- Instance of C15: `[1, 2, 3] + [4, 5]` with the operands in the nodes 0 to 2 and 3
to 4 of a store of five nodes. The result `[1, 2, 3, 4, 5]` lies in the new nodes 5 to 9
and the first five nodes are as before. -/
theorem concat_new_list_operands_unchanged_witness :
    LinkedList.WF (LinkedList.ofVector [1, 2, 3]) ∧
    LinkedList.WF (LinkedList.ofVector [4, 5]) ∧
    Represents [⟨1, some 1⟩, ⟨2, some 2⟩, ⟨3, none⟩, ⟨4, some 4⟩, ⟨5, none⟩] ⟨some 0, 3⟩
      [(0, 1), (1, 2), (2, 3)] (LinkedList.ofVector [1, 2, 3]) ∧
    Represents [⟨1, some 1⟩, ⟨2, some 2⟩, ⟨3, none⟩, ⟨4, some 4⟩, ⟨5, none⟩] ⟨some 3, 2⟩
      [(3, 4), (4, 5)] (LinkedList.ofVector [4, 5]) ∧
    (∃ h2 r rs,
      concat 5 [⟨1, some 1⟩, ⟨2, some 2⟩, ⟨3, none⟩, ⟨4, some 4⟩, ⟨5, none⟩]
        ⟨some 0, 3⟩ ⟨some 3, 2⟩ = some (h2, r) ∧
      Represents h2 r rs
        (LinkedList.concat (LinkedList.ofVector [1, 2, 3]) (LinkedList.ofVector [4, 5])) ∧
      (∀ c ∈ rs.map Prod.fst,
        ([⟨1, some 1⟩, ⟨2, some 2⟩, ⟨3, none⟩, ⟨4, some 4⟩, ⟨5, none⟩] :
          Heap Nat).length ≤ c ∧
        c ∉ [(0, 1), (1, 2), (2, 3)].map Prod.fst ∧ c ∉ [(3, 4), (4, 5)].map Prod.fst) ∧
      (∀ c, c < ([⟨1, some 1⟩, ⟨2, some 2⟩, ⟨3, none⟩, ⟨4, some 4⟩, ⟨5, none⟩] :
          Heap Nat).length →
        h2[c]? = ([⟨1, some 1⟩, ⟨2, some 2⟩, ⟨3, none⟩, ⟨4, some 4⟩, ⟨5, none⟩] :
          Heap Nat)[c]?) ∧
      Represents h2 ⟨some 0, 3⟩ [(0, 1), (1, 2), (2, 3)] (LinkedList.ofVector [1, 2, 3]) ∧
      Represents h2 ⟨some 3, 2⟩ [(3, 4), (4, 5)] (LinkedList.ofVector [4, 5])) ∧
    concat 5 [⟨1, some 1⟩, ⟨2, some 2⟩, ⟨3, none⟩, ⟨4, some 4⟩, ⟨5, none⟩]
        ⟨some 0, 3⟩ ⟨some 3, 2⟩ =
      some ([⟨1, some 1⟩, ⟨2, some 2⟩, ⟨3, none⟩, ⟨4, some 4⟩, ⟨5, none⟩,
             ⟨1, some 6⟩, ⟨2, some 7⟩, ⟨3, some 8⟩, ⟨4, some 9⟩, ⟨5, none⟩],
            ⟨some 5, 5⟩) ∧
    LinkedList.toVector
        (LinkedList.concat (LinkedList.ofVector [1, 2, 3]) (LinkedList.ofVector [4, 5])) =
      [1, 2, 3, 4, 5] :=
  have hrepA : Represents [⟨1, some 1⟩, ⟨2, some 2⟩, ⟨3, none⟩, ⟨4, some 4⟩, ⟨5, none⟩]
      ⟨some 0, 3⟩ [(0, 1), (1, 2), (2, 3)] (LinkedList.ofVector [1, 2, 3]) :=
    ⟨⟨rfl, rfl, rfl, rfl, rfl, rfl, rfl⟩, rfl, rfl⟩
  have hrepB : Represents [⟨1, some 1⟩, ⟨2, some 2⟩, ⟨3, none⟩, ⟨4, some 4⟩, ⟨5, none⟩]
      ⟨some 3, 2⟩ [(3, 4), (4, 5)] (LinkedList.ofVector [4, 5]) :=
    ⟨⟨rfl, rfl, rfl, rfl, rfl⟩, rfl, rfl⟩
  ⟨rfl, rfl, hrepA, hrepB,
   (concat_new_list_operands_unchanged (LinkedList.ofVector [1, 2, 3])
      (LinkedList.ofVector [4, 5]) rfl rfl).2.2 _ _ _ _ _ 5 hrepA hrepB (by decide),
   by decide, rfl⟩

end OnHeap
